import Mathlib

/-!
# Boolean Expression Solver — verification of the parser/evaluator core

This file gives a shallow embedding of the recursive-descent Boolean
expression parser/evaluator found in `solver.c` (command-line host) and
`server.c` (CGI host), together with the truth-table enumerator of
`generate_truth_table`, and proves properties of that embedding.

Modelling conventions:
* A C string is a `List Char`; the NUL terminator is implicit: reading
  at an index `≥` the length yields `'\x00'`, exactly as reading the
  terminator of a C string does.  The parser state is the current index
  into the (fixed) input, mirroring the `const char **s` cursor.
* C `int` values are modelled as `Int`; the 256-entry variable mapping
  `g_var_mapping` / `int mapping[256]` is `Fin 256 → Int`.
* The parser functions take a fuel argument (C recursion is unbounded;
  fuel exhaustion is `none`).  `parse_mono` shows results are stable
  once the fuel is sufficient.
* The two hosts duplicate the parser; the only textual difference is the
  final `else` of `parse_factor`: `solver.c` advances past an
  unrecognized character, `server.c` does not.  The embedding takes a
  flag `adv : Bool` capturing exactly that difference (`adv = true`
  models `solver.c`, `adv = false` models `server.c`).
* Two readings of the `'·'` (AND) comparison are modelled.  In the
  UTF-8 sources, `'·'` is the byte pair `0xC2 0xB7` inside single
  quotes — a C multi-character character constant of value `0xC2B7`,
  which a promoted `char` can never equal, so the compiled AND branch
  is dead.  `parseGoB` (and the `B`-suffixed wrappers) model the
  program as compiled: one list element per input byte, and the AND
  test compares the promoted byte against that constant.  `parseGo`
  models the single-character reading of `'·'` that the code itself
  documents (its grammar comments say `'·'` denotes AND; a single-byte
  source encoding such as Latin-1 compiles to it).
* `int total_rows = 1 << var_count` in `generate_truth_table` is a
  32-bit signed shift: `total_rows` models its value as produced by the
  documented gcc/x86-64 build (shift count masked to 5 bits, result in
  two's complement), so 31 distinct variables give a negative count and
  the row loop runs zero times.
* Memory beyond a string's NUL terminator is modelled by putting the
  terminator and the residual bytes into the list itself: running the
  parser on `s ++ '\x00' :: tail` from index 0 is the program reading
  the bytes of `s`, its terminator, then the residual bytes `tail`
  (and NULs beyond).  `solver.c`'s unrecognized-character branch can
  step past the terminator into that region.
* `fprintf(stderr, "Error: Missing closing parenthesis.\n")` does not
  abort the parse in the C code; it is modelled as a `Bool` diagnostic
  flag carried in the parser result (`true` once the message has been
  printed).  The parse value is returned regardless, as in the source.
-/

/-- C `isspace` on the default locale, ASCII: space, \t, \n, \v, \f, \r. -/
def isspaceC (c : Char) : Bool :=
  c.toNat = 32 || c.toNat = 9 || c.toNat = 10 || c.toNat = 11 || c.toNat = 12 || c.toNat = 13

/-- C `isdigit`, ASCII `'0'`–`'9'`. -/
def isdigitC (c : Char) : Bool :=
  48 ≤ c.toNat && c.toNat ≤ 57

/-- C `isalpha`, ASCII `'A'`–`'Z'` and `'a'`–`'z'`. -/
def isalphaC (c : Char) : Bool :=
  (65 ≤ c.toNat && c.toNat ≤ 90) || (97 ≤ c.toNat && c.toNat ≤ 122)

/-- Read the byte at index `i` of the input list; past the end of the
list every read yields NUL.  A C string `s` whose residual memory after
the terminator holds the bytes `tail` is therefore modelled by the list
`s ++ '\x00' :: tail`: index `s.length` is the terminator, further
indices are the residual bytes, and the all-NUL extension beyond the
list stands for zeroed memory. -/
def getC (s : List Char) (i : Nat) : Char :=
  s.getD i '\x00'

/-- `g_var_mapping` / `int mapping[256]`: 256 C `int` entries. -/
abbrev Mapping := Fin 256 → Int

/-- The array index `(int)var` used for a variable character. -/
def charIdx (c : Char) : Fin 256 :=
  ⟨c.toNat % 256, Nat.mod_lt _ (by decide)⟩

/-- Bounded iteration core of `skip_whitespace`; the budget
`s.length - i` always dominates the remaining whitespace run, so this
computes the exact C loop. -/
def skipWSGo : Nat → List Char → Nat → Nat
  | 0, _, i => i
  | b + 1, s, i =>
    if getC s i ≠ '\x00' ∧ isspaceC (getC s i) = true then skipWSGo b s (i + 1) else i

/-- `skip_whitespace`: advance the cursor past whitespace
(`while (**s && isspace(**s)) (*s)++;`). -/
def skip_whitespace (s : List Char) (i : Nat) : Nat :=
  skipWSGo (s.length - i) s i

/-- Tags for the five mutually recursive pieces of the recursive-descent
parser: `parse_factor`, `parse_term` and its `'·'` loop,
`parse_expression` and its `'+'` loop. -/
inductive PK : Type
  | fact
  | term
  | termLoop
  | expr
  | exprLoop

/-- The recursive-descent parser of `solver.c` / `server.c` under the
single-character reading of `'·'` (the behavior the code documents and
a single-byte source encoding compiles to): one fuel-indexed function
over the five tags, structural on the fuel so the kernel can evaluate
it.  The `v`/`e` arguments are the accumulated value and diagnostic
flag; they are only meaningful for the two loop tags.  The program as
compiled from the UTF-8 sources, where the `'·'` comparison can never
succeed, is `parseGoB` below.  Use the source-named wrappers
`parse_factor`, `parse_term`, `parse_expression` (and their
`B`-suffixed variants). -/
def parseGo (adv : Bool) (m : Mapping) :
    Nat → PK → List Char → Nat → Int → Bool → Option (Int × Nat × Bool)
  | 0, _, _, _, _, _ => none
  | fuel + 1, .fact, s, i, _, _ =>
    let i0 := skip_whitespace s i
    if getC s i0 = '!' then
      match parseGo adv m fuel .fact s (i0 + 1) 0 false with
      | none => none
      | some (fv, j, e) => some (if fv = 0 then 1 else 0, j, e)
    else if getC s i0 = '(' then
      match parseGo adv m fuel .expr s (i0 + 1) 0 false with
      | none => none
      | some (v, j, e) =>
        let j2 := skip_whitespace s j
        if getC s j2 = ')' then some (v, j2 + 1, e)
        else some (v, j2, true)
    else if isdigitC (getC s i0) = true then
      some (((getC s i0).toNat : Int) - 48, i0 + 1, false)
    else if isalphaC (getC s i0) = true then
      some (m (charIdx (getC s i0)), i0 + 1, false)
    else
      some (0, if adv then i0 + 1 else i0, false)
  | fuel + 1, .term, s, i, _, _ =>
    match parseGo adv m fuel .fact s i 0 false with
    | none => none
    | some (v, j, e) => parseGo adv m fuel .termLoop s (skip_whitespace s j) v e
  | fuel + 1, .termLoop, s, i, v, e =>
    if getC s i = '·' then
      match parseGo adv m fuel .fact s (skip_whitespace s (i + 1)) 0 false with
      | none => none
      | some (fv, j, e2) =>
        parseGo adv m fuel .termLoop s (skip_whitespace s j)
          (if v ≠ 0 ∧ fv ≠ 0 then 1 else 0) (e || e2)
    else some (v, i, e)
  | fuel + 1, .expr, s, i, _, _ =>
    match parseGo adv m fuel .term s i 0 false with
    | none => none
    | some (v, j, e) => parseGo adv m fuel .exprLoop s (skip_whitespace s j) v e
  | fuel + 1, .exprLoop, s, i, v, e =>
    if getC s i = '+' then
      match parseGo adv m fuel .term s (skip_whitespace s (i + 1)) 0 false with
      | none => none
      | some (tv, j, e2) =>
        parseGo adv m fuel .exprLoop s (skip_whitespace s j)
          (if v ≠ 0 ∨ tv ≠ 0 then 1 else 0) (e || e2)
    else some (v, i, e)

/-- `parse_factor`: NOT, parenthesized group, literal digit, variable,
or (last `else`) an unrecognized character.  `adv = true` is the
`solver.c` version which advances past the unrecognized character;
`adv = false` is the `server.c` version which leaves the cursor put. -/
def parse_factor (adv : Bool) (m : Mapping) (fuel : Nat) (s : List Char) (i : Nat) :
    Option (Int × Nat × Bool) :=
  parseGo adv m fuel .fact s i 0 false

/-- `parse_term`: a factor followed by the `'·'` loop. -/
def parse_term (adv : Bool) (m : Mapping) (fuel : Nat) (s : List Char) (i : Nat) :
    Option (Int × Nat × Bool) :=
  parseGo adv m fuel .term s i 0 false

/-- The `while (**s == '·')` loop of `parse_term`. -/
def parse_term_loop (adv : Bool) (m : Mapping) (fuel : Nat) (s : List Char) (i : Nat)
    (v : Int) (e : Bool) : Option (Int × Nat × Bool) :=
  parseGo adv m fuel .termLoop s i v e

/-- `parse_expression`: a term followed by the `'+'` loop. -/
def parse_expression (adv : Bool) (m : Mapping) (fuel : Nat) (s : List Char) (i : Nat) :
    Option (Int × Nat × Bool) :=
  parseGo adv m fuel .expr s i 0 false

/-- The `while (**s == '+')` loop of `parse_expression`. -/
def parse_expr_loop (adv : Bool) (m : Mapping) (fuel : Nat) (s : List Char) (i : Nat)
    (v : Int) (e : Bool) : Option (Int × Nat × Bool) :=
  parseGo adv m fuel .exprLoop s i v e

/-- Unfolding equation for `parse_factor` at positive fuel, phrased in
terms of the source-named wrappers. -/
theorem parse_factor_succ (adv : Bool) (m : Mapping) (fuel : Nat) (s : List Char) (i : Nat) :
    parse_factor adv m (fuel + 1) s i =
      ((let i0 := skip_whitespace s i
       if getC s i0 = '!' then
         match parse_factor adv m fuel s (i0 + 1) with
         | none => none
         | some (fv, j, e) => some (if fv = 0 then 1 else 0, j, e)
       else if getC s i0 = '(' then
         match parse_expression adv m fuel s (i0 + 1) with
         | none => none
         | some (v, j, e) =>
           let j2 := skip_whitespace s j
           if getC s j2 = ')' then some (v, j2 + 1, e)
           else some (v, j2, true)
       else if isdigitC (getC s i0) = true then
         some (((getC s i0).toNat : Int) - 48, i0 + 1, false)
       else if isalphaC (getC s i0) = true then
         some (m (charIdx (getC s i0)), i0 + 1, false)
       else
         some (0, if adv then i0 + 1 else i0, false) : Option (Int × Nat × Bool))) := rfl

/-- Unfolding equation for `parse_term` at positive fuel. -/
theorem parse_term_succ (adv : Bool) (m : Mapping) (fuel : Nat) (s : List Char) (i : Nat) :
    parse_term adv m (fuel + 1) s i =
      (match parse_factor adv m fuel s i with
       | none => none
       | some (v, j, e) => parse_term_loop adv m fuel s (skip_whitespace s j) v e) := rfl

/-- Unfolding equation for `parse_term_loop` at positive fuel. -/
theorem parse_term_loop_succ (adv : Bool) (m : Mapping) (fuel : Nat) (s : List Char)
    (i : Nat) (v : Int) (e : Bool) :
    parse_term_loop adv m (fuel + 1) s i v e =
      (if getC s i = '·' then
         match parse_factor adv m fuel s (skip_whitespace s (i + 1)) with
         | none => none
         | some (fv, j, e2) =>
           parse_term_loop adv m fuel s (skip_whitespace s j)
             (if v ≠ 0 ∧ fv ≠ 0 then 1 else 0) (e || e2)
       else some (v, i, e)) := rfl

/-- Unfolding equation for `parse_expression` at positive fuel. -/
theorem parse_expression_succ (adv : Bool) (m : Mapping) (fuel : Nat) (s : List Char) (i : Nat) :
    parse_expression adv m (fuel + 1) s i =
      (match parse_term adv m fuel s i with
       | none => none
       | some (v, j, e) => parse_expr_loop adv m fuel s (skip_whitespace s j) v e) := rfl

/-- Unfolding equation for `parse_expr_loop` at positive fuel. -/
theorem parse_expr_loop_succ (adv : Bool) (m : Mapping) (fuel : Nat) (s : List Char)
    (i : Nat) (v : Int) (e : Bool) :
    parse_expr_loop adv m (fuel + 1) s i v e =
      (if getC s i = '+' then
         match parse_term adv m fuel s (skip_whitespace s (i + 1)) with
         | none => none
         | some (tv, j, e2) =>
           parse_expr_loop adv m fuel s (skip_whitespace s j)
             (if v ≠ 0 ∨ tv ≠ 0 then 1 else 0) (e || e2)
       else some (v, i, e)) := rfl

/-- At zero fuel every parser piece returns `none`. -/
theorem parseGo_zero (adv : Bool) (m : Mapping) (k : PK) (s : List Char) (i : Nat)
    (v : Int) (e : Bool) : parseGo adv m 0 k s i v e = none := rfl

/-- The value of `**s` under C integer promotion of a signed `char`
(the x86-64 ABI): bytes `0x80`–`0xFF` become negative. -/
def charPromote (c : Char) : Int :=
  if c.toNat < 128 then (c.toNat : Int) else (c.toNat : Int) - 256

/-- The C character constant `'·'` as written in the UTF-8 sources: the
two bytes `0xC2 0xB7` inside single quotes form a multi-character
character constant, which gcc evaluates to `0xC2B7`. -/
def midDotConstant : Int := 0xC2B7

/-- No promoted byte can equal the multi-character constant, so the
compiled `**s == '·'` comparison is always false. -/
theorem charPromote_ne_midDot (c : Char) (h : c.toNat < 256) :
    charPromote c ≠ midDotConstant := by
  unfold charPromote midDotConstant
  by_cases hc : c.toNat < 128 <;> simp [hc] <;> omega

/-- The parser as compiled from the UTF-8 sources: identical to
`parseGo` except that the AND test is the compiled comparison of the
promoted input byte against the multi-character constant `0xC2B7`,
which never succeeds — the AND branch is dead.  Input lists hold one
element per input byte (so the middle dot appears as
`'\xC2' :: '\xB7' :: _`; `isalpha`/`isdigit`/`isspace` return 0 on
those bytes in the C locale, as modelled by the character classes
above). -/
def parseGoB (adv : Bool) (m : Mapping) :
    Nat → PK → List Char → Nat → Int → Bool → Option (Int × Nat × Bool)
  | 0, _, _, _, _, _ => none
  | fuel + 1, .fact, s, i, _, _ =>
    let i0 := skip_whitespace s i
    if getC s i0 = '!' then
      match parseGoB adv m fuel .fact s (i0 + 1) 0 false with
      | none => none
      | some (fv, j, e) => some (if fv = 0 then 1 else 0, j, e)
    else if getC s i0 = '(' then
      match parseGoB adv m fuel .expr s (i0 + 1) 0 false with
      | none => none
      | some (v, j, e) =>
        let j2 := skip_whitespace s j
        if getC s j2 = ')' then some (v, j2 + 1, e)
        else some (v, j2, true)
    else if isdigitC (getC s i0) = true then
      some (((getC s i0).toNat : Int) - 48, i0 + 1, false)
    else if isalphaC (getC s i0) = true then
      some (m (charIdx (getC s i0)), i0 + 1, false)
    else
      some (0, if adv then i0 + 1 else i0, false)
  | fuel + 1, .term, s, i, _, _ =>
    match parseGoB adv m fuel .fact s i 0 false with
    | none => none
    | some (v, j, e) => parseGoB adv m fuel .termLoop s (skip_whitespace s j) v e
  | fuel + 1, .termLoop, s, i, v, e =>
    if charPromote (getC s i) = midDotConstant then
      match parseGoB adv m fuel .fact s (skip_whitespace s (i + 1)) 0 false with
      | none => none
      | some (fv, j, e2) =>
        parseGoB adv m fuel .termLoop s (skip_whitespace s j)
          (if v ≠ 0 ∧ fv ≠ 0 then 1 else 0) (e || e2)
    else some (v, i, e)
  | fuel + 1, .expr, s, i, _, _ =>
    match parseGoB adv m fuel .term s i 0 false with
    | none => none
    | some (v, j, e) => parseGoB adv m fuel .exprLoop s (skip_whitespace s j) v e
  | fuel + 1, .exprLoop, s, i, v, e =>
    if getC s i = '+' then
      match parseGoB adv m fuel .term s (skip_whitespace s (i + 1)) 0 false with
      | none => none
      | some (tv, j, e2) =>
        parseGoB adv m fuel .exprLoop s (skip_whitespace s j)
          (if v ≠ 0 ∨ tv ≠ 0 then 1 else 0) (e || e2)
    else some (v, i, e)

/-- Compiled-semantics `parse_factor` (`adv` as for `parse_factor`). -/
def parse_factorB (adv : Bool) (m : Mapping) (fuel : Nat) (s : List Char) (i : Nat) :
    Option (Int × Nat × Bool) :=
  parseGoB adv m fuel .fact s i 0 false

/-- Compiled-semantics `parse_term`. -/
def parse_termB (adv : Bool) (m : Mapping) (fuel : Nat) (s : List Char) (i : Nat) :
    Option (Int × Nat × Bool) :=
  parseGoB adv m fuel .term s i 0 false

/-- Compiled-semantics `'·'` loop of `parse_term` (never iterates). -/
def parse_term_loopB (adv : Bool) (m : Mapping) (fuel : Nat) (s : List Char) (i : Nat)
    (v : Int) (e : Bool) : Option (Int × Nat × Bool) :=
  parseGoB adv m fuel .termLoop s i v e

/-- Compiled-semantics `parse_expression`. -/
def parse_expressionB (adv : Bool) (m : Mapping) (fuel : Nat) (s : List Char) (i : Nat) :
    Option (Int × Nat × Bool) :=
  parseGoB adv m fuel .expr s i 0 false

/-- Compiled-semantics `'+'` loop of `parse_expression`. -/
def parse_expr_loopB (adv : Bool) (m : Mapping) (fuel : Nat) (s : List Char) (i : Nat)
    (v : Int) (e : Bool) : Option (Int × Nat × Bool) :=
  parseGoB adv m fuel .exprLoop s i v e

/-- Unfolding equation for `parse_factorB` at positive fuel. -/
theorem parse_factorB_succ (adv : Bool) (m : Mapping) (fuel : Nat) (s : List Char) (i : Nat) :
    parse_factorB adv m (fuel + 1) s i =
      ((let i0 := skip_whitespace s i
       if getC s i0 = '!' then
         match parse_factorB adv m fuel s (i0 + 1) with
         | none => none
         | some (fv, j, e) => some (if fv = 0 then 1 else 0, j, e)
       else if getC s i0 = '(' then
         match parse_expressionB adv m fuel s (i0 + 1) with
         | none => none
         | some (v, j, e) =>
           let j2 := skip_whitespace s j
           if getC s j2 = ')' then some (v, j2 + 1, e)
           else some (v, j2, true)
       else if isdigitC (getC s i0) = true then
         some (((getC s i0).toNat : Int) - 48, i0 + 1, false)
       else if isalphaC (getC s i0) = true then
         some (m (charIdx (getC s i0)), i0 + 1, false)
       else
         some (0, if adv then i0 + 1 else i0, false) : Option (Int × Nat × Bool))) := rfl

/-- Unfolding equation for `parse_termB` at positive fuel. -/
theorem parse_termB_succ (adv : Bool) (m : Mapping) (fuel : Nat) (s : List Char) (i : Nat) :
    parse_termB adv m (fuel + 1) s i =
      (match parse_factorB adv m fuel s i with
       | none => none
       | some (v, j, e) => parse_term_loopB adv m fuel s (skip_whitespace s j) v e) := rfl

/-- Unfolding equation for `parse_term_loopB` at positive fuel. -/
theorem parse_term_loopB_succ (adv : Bool) (m : Mapping) (fuel : Nat) (s : List Char)
    (i : Nat) (v : Int) (e : Bool) :
    parse_term_loopB adv m (fuel + 1) s i v e =
      (if charPromote (getC s i) = midDotConstant then
         match parse_factorB adv m fuel s (skip_whitespace s (i + 1)) with
         | none => none
         | some (fv, j, e2) =>
           parse_term_loopB adv m fuel s (skip_whitespace s j)
             (if v ≠ 0 ∧ fv ≠ 0 then 1 else 0) (e || e2)
       else some (v, i, e)) := rfl

/-- Unfolding equation for `parse_expressionB` at positive fuel. -/
theorem parse_expressionB_succ (adv : Bool) (m : Mapping) (fuel : Nat) (s : List Char) (i : Nat) :
    parse_expressionB adv m (fuel + 1) s i =
      (match parse_termB adv m fuel s i with
       | none => none
       | some (v, j, e) => parse_expr_loopB adv m fuel s (skip_whitespace s j) v e) := rfl

/-- Unfolding equation for `parse_expr_loopB` at positive fuel. -/
theorem parse_expr_loopB_succ (adv : Bool) (m : Mapping) (fuel : Nat) (s : List Char)
    (i : Nat) (v : Int) (e : Bool) :
    parse_expr_loopB adv m (fuel + 1) s i v e =
      (if getC s i = '+' then
         match parse_termB adv m fuel s (skip_whitespace s (i + 1)) with
         | none => none
         | some (tv, j, e2) =>
           parse_expr_loopB adv m fuel s (skip_whitespace s j)
             (if v ≠ 0 ∨ tv ≠ 0 then 1 else 0) (e || e2)
       else some (v, i, e)) := rfl

/-- At zero fuel every compiled-semantics parser piece returns `none`. -/
theorem parseGoB_zero (adv : Bool) (m : Mapping) (k : PK) (s : List Char) (i : Nat)
    (v : Int) (e : Bool) : parseGoB adv m 0 k s i v e = none := rfl

/-- Compiled loop exit: the `'·'` test compares the promoted byte to the
multi-character constant and fails. -/
theorem parse_term_loopB_exit (adv : Bool) (m : Mapping) (fuel : Nat) (s : List Char)
    (i : Nat) (v : Int) (e : Bool) (h : ¬charPromote (getC s i) = midDotConstant) :
    parse_term_loopB adv m (fuel + 1) s i v e = some (v, i, e) := by
  rw [parse_term_loopB_succ]
  simp only [if_neg h]

/-- Compiled loop exit: the expression loop stops on a non-`'+'`
byte. -/
theorem parse_expr_loopB_exit (adv : Bool) (m : Mapping) (fuel : Nat) (s : List Char)
    (i : Nat) (v : Int) (e : Bool) (h : getC s i ≠ '+') :
    parse_expr_loopB adv m (fuel + 1) s i v e = some (v, i, e) := by
  rw [parse_expr_loopB_succ]
  simp only [if_neg h]

/-- The default mapping installed by `evaluate_boolean_expression`
(`for (i = 0; i < 256; i++) g_var_mapping[i] = 1;`). -/
def allOnes : Mapping := fun _ => 1

namespace Solver

/-- `solver.c` `evaluate_expr_with_mapping`: install `mapping` into the
global table, then run `parse_expression` from the start of the string
and return its value. -/
def evaluate_expr_with_mapping (fuel : Nat) (s : List Char) (m : Mapping) : Option Int :=
  (parse_expression true m fuel s 0).map (fun r => r.1)

/-- `solver.c` `evaluate_boolean_expression`: every variable defaults to
true (1). -/
def evaluate_boolean_expression (fuel : Nat) (s : List Char) : Option Int :=
  Solver.evaluate_expr_with_mapping fuel s allOnes

end Solver

namespace Server

/-- `server.c` `evaluate_expr_with_mapping`. -/
def evaluate_expr_with_mapping (fuel : Nat) (s : List Char) (m : Mapping) : Option Int :=
  (parse_expression false m fuel s 0).map (fun r => r.1)

/-- `server.c` `evaluate_boolean_expression`. -/
def evaluate_boolean_expression (fuel : Nat) (s : List Char) : Option Int :=
  Server.evaluate_expr_with_mapping fuel s allOnes

end Server

/-- The variable-collection scan of `generate_truth_table`: first
occurrence order, deduplicated, capped at 100 entries. -/
def collectVarsAux : List Char → List Char → List Char
  | acc, [] => acc
  | acc, c :: rest =>
    if isalphaC c = true ∧ c ∉ acc ∧ acc.length < 100 then collectVarsAux (acc ++ [c]) rest
    else collectVarsAux acc rest

/-- The unique variables of an expression string, in first-occurrence
order (the `vars` array of `generate_truth_table`). -/
def collect_vars (s : List Char) : List Char :=
  collectVarsAux [] s

/-- The 256-entry mapping built for row `i` of the truth table: default
all 1, then `mapping[vars[j]] = (i >> (var_count - j - 1)) & 1`. -/
def row_mapping (vs : List Char) (i : Nat) : Mapping :=
  vs.enum.foldl
    (fun m p => fun k =>
      if k = charIdx p.2 then (((i >>> (vs.length - p.1 - 1)) &&& 1 : Nat) : Int) else m k)
    allOnes

/-- Compiled-semantics `evaluate_expr_with_mapping` of either host
(`adv = true` for `solver.c`, `adv = false` for `server.c`). -/
def evaluate_expr_with_mappingB (adv : Bool) (fuel : Nat) (s : List Char) (m : Mapping) :
    Option Int :=
  (parse_expressionB adv m fuel s 0).map (fun r => r.1)

/-- Compiled-semantics `evaluate_boolean_expression` of either host:
every variable defaults to true. -/
def evaluate_boolean_expressionB (adv : Bool) (fuel : Nat) (s : List Char) : Option Int :=
  evaluate_expr_with_mappingB adv fuel s allOnes

/-- `int total_rows = 1 << var_count;` as the documented gcc/x86-64
build computes it: a 32-bit signed shift with the count masked to five
bits, `1 << 31` yielding `INT_MIN` in two's complement.  The row loop
`for (int i = 0; i < total_rows; i++)` then runs `max 0 total_rows`
times, i.e. `(total_rows n).toNat` times. -/
def total_rows (n : Nat) : Int :=
  if n % 32 = 31 then -(2 ^ 31) else ((2 ^ (n % 32) : Nat) : Int)

/-- Below 31 variables the shift does not overflow and the row count is
the exact power of two. -/
theorem total_rows_small (n : Nat) (h : n ≤ 30) : (total_rows n).toNat = 2 ^ n := by
  unfold total_rows
  have hm : n % 32 = n := Nat.mod_eq_of_lt (by omega)
  rw [hm, if_neg (show ¬n = 31 by omega)]
  exact Int.toNat_natCast _

/-- One printed row of the truth table: the per-variable values in
column order, and the evaluation result (compiled semantics). -/
def table_row (fuel : Nat) (s : List Char) (vs : List Char) (i : Nat) :
    List (Char × Int) × Option Int :=
  (vs.enum.map (fun p => (p.2, (((i >>> (vs.length - p.1 - 1)) &&& 1 : Nat) : Int))),
   evaluate_expr_with_mappingB true fuel s (row_mapping vs i))

/-- `generate_truth_table`: `max 0 (1 << var_count)` rows, row `i`
assigning the `j`-th variable bit `var_count - j - 1` of `i`. -/
def generate_truth_table (fuel : Nat) (s : List Char) :
    List (List (Char × Int) × Option Int) :=
  let vs := collect_vars s
  (List.range (total_rows vs.length).toNat).map (table_row fuel s vs)

/-! ## Basic facts about `getC` and `skip_whitespace` -/

theorem getC_nil (i : Nat) : getC [] i = '\x00' := by
  cases i <;> rfl

theorem getC_past (s : List Char) (i : Nat) (h : s.length ≤ i) : getC s i = '\x00' := by
  induction s generalizing i with
  | nil => exact getC_nil i
  | cons c t ih =>
    cases i with
    | zero => simp at h
    | succ k => exact ih k (by simpa using h)

theorem getC_cons_zero (c : Char) (t : List Char) : getC (c :: t) 0 = c := rfl

theorem getC_cons_succ (c : Char) (t : List Char) (k : Nat) :
    getC (c :: t) (k + 1) = getC t k := rfl

/-- Reading at the length of a prefix lands on the first character after
that prefix. -/
theorem getC_at_append (a : List Char) (c : Char) (r : List Char) :
    getC (a ++ c :: r) a.length = c := by
  induction a with
  | nil => rfl
  | cons x t ih => simpa using ih

/-- Reading inside the left part of an append. -/
theorem getC_append_left (a b : List Char) (i : Nat) (h : i < a.length) :
    getC (a ++ b) i = getC a i := by
  induction a generalizing i with
  | nil => simp at h
  | cons x t ih =>
    cases i with
    | zero => rfl
    | succ k => exact ih k (by simpa using h)

/-- Whitespace characters are not the NUL terminator. -/
theorem isspaceC_ne_nul (c : Char) (h : isspaceC c = true) : c ≠ '\x00' := by
  intro he
  subst he
  simp [isspaceC] at h

theorem skip_whitespace_stop (s : List Char) (i : Nat)
    (h : ¬(getC s i ≠ '\x00' ∧ isspaceC (getC s i) = true)) :
    skip_whitespace s i = i := by
  unfold skip_whitespace
  cases hb : s.length - i with
  | zero => rfl
  | succ b => simp [skipWSGo, h]

theorem skip_whitespace_step (s : List Char) (i : Nat)
    (h1 : getC s i ≠ '\x00') (h2 : isspaceC (getC s i) = true) :
    skip_whitespace s i = skip_whitespace s (i + 1) := by
  have hlt : i < s.length := by
    by_contra hge
    exact h1 (getC_past s i (by omega))
  unfold skip_whitespace
  have hb : s.length - i = (s.length - (i + 1)) + 1 := by omega
  rw [hb]
  simp [skipWSGo, h1, h2]

/-- If the character at `i` is not whitespace (or is the terminator),
skipping is the identity. -/
theorem skip_whitespace_of_not_space (s : List Char) (i : Nat)
    (h : isspaceC (getC s i) = false) : skip_whitespace s i = i := by
  apply skip_whitespace_stop
  intro hc
  rw [hc.2] at h
  simp at h

/-- The cursor after `skip_whitespace` rests on a non-whitespace
character or the terminator. -/
theorem skip_whitespace_post (s : List Char) (i : Nat) :
    ¬(getC s (skip_whitespace s i) ≠ '\x00' ∧
      isspaceC (getC s (skip_whitespace s i)) = true) := by
  have H : ∀ b i, b = s.length - i →
      ¬(getC s (skip_whitespace s i) ≠ '\x00' ∧
        isspaceC (getC s (skip_whitespace s i)) = true) := by
    intro b
    induction b with
    | zero =>
      intro i hb
      have : skip_whitespace s i = i := by
        unfold skip_whitespace
        rw [← hb]
        rfl
      rw [this]
      rintro ⟨h1, h2⟩
      have : i < s.length := by
        by_contra hge
        exact h1 (getC_past s i (by omega))
      omega
    | succ b ih =>
      intro i hb
      by_cases hc : getC s i ≠ '\x00' ∧ isspaceC (getC s i) = true
      · rw [skip_whitespace_step s i hc.1 hc.2]
        apply ih
        have : i < s.length := by
          by_contra hge
          exact hc.1 (getC_past s i (by omega))
        omega
      · rw [skip_whitespace_stop s i hc]
        exact hc
  exact H _ i rfl

theorem skip_whitespace_idem (s : List Char) (i : Nat) :
    skip_whitespace s (skip_whitespace s i) = skip_whitespace s i :=
  skip_whitespace_stop s _ (skip_whitespace_post s i)

/-- Skipping never moves the cursor backwards. -/
theorem skip_whitespace_le (s : List Char) (i : Nat) : i ≤ skip_whitespace s i := by
  have H : ∀ b i, b = s.length - i → i ≤ skip_whitespace s i := by
    intro b
    induction b with
    | zero =>
      intro i hb
      have : skip_whitespace s i = i := by
        unfold skip_whitespace
        rw [← hb]
        rfl
      omega
    | succ b ih =>
      intro i hb
      by_cases hc : getC s i ≠ '\x00' ∧ isspaceC (getC s i) = true
      · rw [skip_whitespace_step s i hc.1 hc.2]
        have hlt : i < s.length := by
          by_contra hge
          exact hc.1 (getC_past s i (by omega))
        have := ih (i + 1) (by omega)
        omega
      · rw [skip_whitespace_stop s i hc]
  exact H _ i rfl

/-- A run of whitespace `w` sitting at position `a.length` is skipped
exactly, provided the character that follows it is not whitespace. -/
theorem skip_whitespace_exact (a w r : List Char)
    (hw : ∀ c ∈ w, isspaceC c = true)
    (hr : isspaceC (getC (a ++ w ++ r) (a.length + w.length)) = false) :
    skip_whitespace (a ++ w ++ r) a.length = a.length + w.length := by
  induction w generalizing a with
  | nil =>
    have hr' : isspaceC (getC (a ++ r) a.length) = false := by simpa using hr
    simpa using skip_whitespace_of_not_space (a ++ r) a.length hr'
  | cons c t ih =>
    have hgc : getC (a ++ (c :: t) ++ r) a.length = c := by
      have := getC_at_append a c (t ++ r)
      simpa [List.append_assoc] using this
    have hcs : isspaceC c = true := hw c (by simp)
    have hstep := skip_whitespace_step (a ++ (c :: t) ++ r) a.length
      (by rw [hgc]; exact isspaceC_ne_nul c hcs) (by rw [hgc]; exact hcs)
    rw [hstep]
    have hre : a ++ (c :: t) ++ r = (a ++ [c]) ++ t ++ r := by simp
    have hlen : a.length + 1 = (a ++ [c]).length := by simp
    rw [hre, hlen]
    have := ih (a ++ [c]) (fun x hx => hw x (by simp [hx]))
      (by
        have : (a ++ [c]).length + t.length = a.length + (c :: t).length := by
          simp
          omega
        rw [this, ← hre]
        exact hr)
    rw [this]
    simp
    omega

/-! ## Fuel monotonicity: a successful parse is stable under more fuel -/

theorem parse_mono : ∀ fuel fuel', fuel ≤ fuel' → ∀ adv m s,
    (∀ i r, parse_factor adv m fuel s i = some r → parse_factor adv m fuel' s i = some r) ∧
    (∀ i r, parse_term adv m fuel s i = some r → parse_term adv m fuel' s i = some r) ∧
    (∀ i v e r, parse_term_loop adv m fuel s i v e = some r →
      parse_term_loop adv m fuel' s i v e = some r) ∧
    (∀ i r, parse_expression adv m fuel s i = some r → parse_expression adv m fuel' s i = some r) ∧
    (∀ i v e r, parse_expr_loop adv m fuel s i v e = some r →
      parse_expr_loop adv m fuel' s i v e = some r) := by
  intro fuel
  induction fuel with
  | zero =>
    intro fuel' _ adv m s
    refine ⟨?_, ?_, ?_, ?_, ?_⟩ <;>
      · intros
        simp_all [parse_factor, parse_term, parse_term_loop, parse_expression,
          parse_expr_loop, parseGo_zero]
  | succ fuel ih =>
    intro fuel' hle adv m s
    obtain ⟨f', rfl⟩ : ∃ f', fuel' = f' + 1 := ⟨fuel' - 1, by omega⟩
    have hf : fuel ≤ f' := by omega
    obtain ⟨IHf, IHt, IHtl, IHe, IHel⟩ := ih f' hf adv m s
    refine ⟨?_, ?_, ?_, ?_, ?_⟩
    · intro i r h
      rw [parse_factor_succ] at h
      rw [parse_factor_succ]
      simp only at h ⊢
      by_cases h1 : getC s (skip_whitespace s i) = '!'
      · simp only [h1, if_pos] at h ⊢
        cases hsub : parse_factor adv m fuel s (skip_whitespace s i + 1) with
        | none => rw [hsub] at h; exact absurd h (by simp)
        | some p =>
          obtain ⟨fv, j, e⟩ := p
          rw [hsub] at h
          rw [IHf _ _ hsub]
          exact h
      · simp only [h1, if_neg, if_false] at h ⊢
        by_cases h2 : getC s (skip_whitespace s i) = '('
        · simp only [h2, if_pos] at h ⊢
          cases hsub : parse_expression adv m fuel s (skip_whitespace s i + 1) with
          | none => rw [hsub] at h; exact absurd h (by simp)
          | some p =>
            obtain ⟨v, j, e⟩ := p
            rw [hsub] at h
            rw [IHe _ _ hsub]
            exact h
        · simp only [h2, if_neg, if_false] at h ⊢
          exact h
    · intro i r h
      rw [parse_term_succ] at h
      rw [parse_term_succ]
      cases hsub : parse_factor adv m fuel s i with
      | none => rw [hsub] at h; exact absurd h (by simp)
      | some p =>
        obtain ⟨v, j, e⟩ := p
        rw [hsub] at h
        rw [IHf _ _ hsub]
        exact IHtl _ _ _ _ h
    · intro i v e r h
      rw [parse_term_loop_succ] at h
      rw [parse_term_loop_succ]
      by_cases h1 : getC s i = '·'
      · simp only [h1, if_pos] at h ⊢
        cases hsub : parse_factor adv m fuel s (skip_whitespace s (i + 1)) with
        | none => rw [hsub] at h; exact absurd h (by simp)
        | some p =>
          obtain ⟨fv, j, e2⟩ := p
          rw [hsub] at h
          rw [IHf _ _ hsub]
          exact IHtl _ _ _ _ h
      · simp only [h1, if_neg, if_false] at h ⊢
        exact h
    · intro i r h
      rw [parse_expression_succ] at h
      rw [parse_expression_succ]
      cases hsub : parse_term adv m fuel s i with
      | none => rw [hsub] at h; exact absurd h (by simp)
      | some p =>
        obtain ⟨v, j, e⟩ := p
        rw [hsub] at h
        rw [IHt _ _ hsub]
        exact IHel _ _ _ _ h
    · intro i v e r h
      rw [parse_expr_loop_succ] at h
      rw [parse_expr_loop_succ]
      by_cases h1 : getC s i = '+'
      · simp only [h1, if_pos] at h ⊢
        cases hsub : parse_term adv m fuel s (skip_whitespace s (i + 1)) with
        | none => rw [hsub] at h; exact absurd h (by simp)
        | some p =>
          obtain ⟨tv, j, e2⟩ := p
          rw [hsub] at h
          rw [IHt _ _ hsub]
          exact IHel _ _ _ _ h
      · simp only [h1, if_neg, if_false] at h ⊢
        exact h

/-- Monotonicity specialized to `parse_expression`. -/
theorem parse_expression_mono (adv : Bool) (m : Mapping) (s : List Char) (i : Nat)
    (fuel fuel' : Nat) (hle : fuel ≤ fuel') (r : Int × Nat × Bool)
    (h : parse_expression adv m fuel s i = some r) :
    parse_expression adv m fuel' s i = some r :=
  (parse_mono fuel fuel' hle adv m s).2.2.2.1 i r h

/-- Fuel monotonicity for the compiled-semantics parser. -/
theorem parse_monoB : ∀ fuel fuel', fuel ≤ fuel' → ∀ adv m s,
    (∀ i r, parse_factorB adv m fuel s i = some r → parse_factorB adv m fuel' s i = some r) ∧
    (∀ i r, parse_termB adv m fuel s i = some r → parse_termB adv m fuel' s i = some r) ∧
    (∀ i v e r, parse_term_loopB adv m fuel s i v e = some r →
      parse_term_loopB adv m fuel' s i v e = some r) ∧
    (∀ i r, parse_expressionB adv m fuel s i = some r →
      parse_expressionB adv m fuel' s i = some r) ∧
    (∀ i v e r, parse_expr_loopB adv m fuel s i v e = some r →
      parse_expr_loopB adv m fuel' s i v e = some r) := by
  intro fuel
  induction fuel with
  | zero =>
    intro fuel' _ adv m s
    refine ⟨?_, ?_, ?_, ?_, ?_⟩ <;>
      · intros
        simp_all [parse_factorB, parse_termB, parse_term_loopB, parse_expressionB,
          parse_expr_loopB, parseGoB_zero]
  | succ fuel ih =>
    intro fuel' hle adv m s
    obtain ⟨f', rfl⟩ : ∃ f', fuel' = f' + 1 := ⟨fuel' - 1, by omega⟩
    have hf : fuel ≤ f' := by omega
    obtain ⟨IHf, IHt, IHtl, IHe, IHel⟩ := ih f' hf adv m s
    refine ⟨?_, ?_, ?_, ?_, ?_⟩
    · intro i r h
      rw [parse_factorB_succ] at h
      rw [parse_factorB_succ]
      simp only at h ⊢
      by_cases h1 : getC s (skip_whitespace s i) = '!'
      · simp only [h1, if_pos] at h ⊢
        cases hsub : parse_factorB adv m fuel s (skip_whitespace s i + 1) with
        | none => rw [hsub] at h; exact absurd h (by simp)
        | some p =>
          obtain ⟨fv, j, e⟩ := p
          rw [hsub] at h
          rw [IHf _ _ hsub]
          exact h
      · simp only [h1, if_neg, if_false] at h ⊢
        by_cases h2 : getC s (skip_whitespace s i) = '('
        · simp only [h2, if_pos] at h ⊢
          cases hsub : parse_expressionB adv m fuel s (skip_whitespace s i + 1) with
          | none => rw [hsub] at h; exact absurd h (by simp)
          | some p =>
            obtain ⟨v, j, e⟩ := p
            rw [hsub] at h
            rw [IHe _ _ hsub]
            exact h
        · simp only [h2, if_neg, if_false] at h ⊢
          exact h
    · intro i r h
      rw [parse_termB_succ] at h
      rw [parse_termB_succ]
      cases hsub : parse_factorB adv m fuel s i with
      | none => rw [hsub] at h; exact absurd h (by simp)
      | some p =>
        obtain ⟨v, j, e⟩ := p
        rw [hsub] at h
        rw [IHf _ _ hsub]
        exact IHtl _ _ _ _ h
    · intro i v e r h
      rw [parse_term_loopB_succ] at h
      rw [parse_term_loopB_succ]
      by_cases h1 : charPromote (getC s i) = midDotConstant
      · simp only [h1, if_pos] at h ⊢
        cases hsub : parse_factorB adv m fuel s (skip_whitespace s (i + 1)) with
        | none => rw [hsub] at h; exact absurd h (by simp)
        | some p =>
          obtain ⟨fv, j, e2⟩ := p
          rw [hsub] at h
          rw [IHf _ _ hsub]
          exact IHtl _ _ _ _ h
      · simp only [h1, if_neg, if_false] at h ⊢
        exact h
    · intro i r h
      rw [parse_expressionB_succ] at h
      rw [parse_expressionB_succ]
      cases hsub : parse_termB adv m fuel s i with
      | none => rw [hsub] at h; exact absurd h (by simp)
      | some p =>
        obtain ⟨v, j, e⟩ := p
        rw [hsub] at h
        rw [IHt _ _ hsub]
        exact IHel _ _ _ _ h
    · intro i v e r h
      rw [parse_expr_loopB_succ] at h
      rw [parse_expr_loopB_succ]
      by_cases h1 : getC s i = '+'
      · simp only [h1, if_pos] at h ⊢
        cases hsub : parse_termB adv m fuel s (skip_whitespace s (i + 1)) with
        | none => rw [hsub] at h; exact absurd h (by simp)
        | some p =>
          obtain ⟨tv, j, e2⟩ := p
          rw [hsub] at h
          rw [IHt _ _ hsub]
          exact IHel _ _ _ _ h
      · simp only [h1, if_neg, if_false] at h ⊢
        exact h

/-- Monotonicity specialized to `parse_expressionB`. -/
theorem parse_expressionB_mono (adv : Bool) (m : Mapping) (s : List Char) (i : Nat)
    (fuel fuel' : Nat) (hle : fuel ≤ fuel') (r : Int × Nat × Bool)
    (h : parse_expressionB adv m fuel s i = some r) :
    parse_expressionB adv m fuel' s i = some r :=
  (parse_monoB fuel fuel' hle adv m s).2.2.2.1 i r h

/-! ## `collect_vars` and `row_mapping` facts -/

theorem collectVarsAux_no_alpha (l : List Char) :
    ∀ acc, (∀ c ∈ l, isalphaC c = false) → collectVarsAux acc l = acc := by
  induction l with
  | nil => intro acc _; rfl
  | cons c t ih =>
    intro acc h
    have hc : isalphaC c = false := h c (by simp)
    unfold collectVarsAux
    rw [if_neg (by simp [hc])]
    exact ih acc (fun x hx => h x (by simp [hx]))

/-- A constant-only expression has an empty variable set. -/
theorem collect_vars_no_alpha (s : List Char) (h : ∀ c ∈ s, isalphaC c = false) :
    collect_vars s = [] :=
  collectVarsAux_no_alpha s [] h

theorem collectVarsAux_alpha (l : List Char) :
    ∀ acc, (∀ c ∈ acc, isalphaC c = true) →
      ∀ c ∈ collectVarsAux acc l, isalphaC c = true := by
  induction l with
  | nil => intro acc hacc; exact hacc
  | cons c t ih =>
    intro acc hacc
    unfold collectVarsAux
    by_cases hc : isalphaC c = true ∧ c ∉ acc ∧ acc.length < 100
    · rw [if_pos hc]
      exact ih (acc ++ [c]) (by
        intro x hx
        rcases List.mem_append.1 hx with hx | hx
        · exact hacc x hx
        · simp at hx; subst hx; exact hc.1)
    · rw [if_neg hc]
      exact ih acc hacc

/-- Every collected variable is an alphabetic character. -/
theorem collect_vars_alpha (s : List Char) : ∀ c ∈ collect_vars s, isalphaC c = true :=
  collectVarsAux_alpha s [] (by simp)

/-- Characters are determined by their code points. -/
theorem char_toNat_inj (a b : Char) (h : a.toNat = b.toNat) : a = b := by
  have ha := Char.ofNat_toNat a
  have hb := Char.ofNat_toNat b
  rw [← ha, ← hb, h]

/-- On alphabetic characters the array index `(int)var` is injective. -/
theorem charIdx_inj_alpha (a b : Char) (ha : isalphaC a = true) (hb : isalphaC b = true)
    (h : charIdx a = charIdx b) : a = b := by
  have ha' : a.toNat < 256 := by
    simp [isalphaC] at ha
    omega
  have hb' : b.toNat < 256 := by
    simp [isalphaC] at hb
    omega
  have := congrArg Fin.val h
  simp [charIdx, Nat.mod_eq_of_lt ha', Nat.mod_eq_of_lt hb'] at this
  exact char_toNat_inj a b this

/-- A fold of single-index assignments leaves untouched indices at their
initial value. -/
theorem foldl_assign_not_mem (f : Nat × Char → Int) :
    ∀ (l : List (Nat × Char)) (m0 : Mapping) (k : Fin 256),
      (∀ p ∈ l, charIdx p.2 ≠ k) →
      (l.foldl (fun m p => fun k2 => if k2 = charIdx p.2 then f p else m k2) m0) k = m0 k := by
  intro l
  induction l with
  | nil => intro m0 k _; rfl
  | cons p t ih =>
    intro m0 k h
    have hp : charIdx p.2 ≠ k := h p (by simp)
    have := ih (fun k2 => if k2 = charIdx p.2 then f p else m0 k2) k
      (fun q hq => h q (by simp [hq]))
    rw [List.foldl_cons, this]
    exact if_neg (fun he => hp he.symm)

/-- A variable letter that is not among the collected variables keeps
the default value 1 in every truth-table row mapping. -/
theorem row_mapping_default (s : List Char) (i : Nat) (c : Char)
    (hc : isalphaC c = true) (hmem : c ∉ collect_vars s) :
    row_mapping (collect_vars s) i (charIdx c) = 1 := by
  unfold row_mapping
  rw [foldl_assign_not_mem]
  · rfl
  · intro p hp he
    have hpm : p.2 ∈ collect_vars s := by
      have := List.mem_map_of_mem Prod.snd hp
      simpa [List.enum_map_snd] using this
    exact hmem (charIdx_inj_alpha p.2 c (collect_vars_alpha s p.2 hpm) hc he ▸ hpm)

/-! ## Global-state model for the host process -/

/-- One call into the core, as performed by the hosts. -/
inductive Op : Type
  | evalDefault (s : List Char)
  | evalWith (s : List Char) (m : Mapping)
  | truthTable (s : List Char)

/-- The observable output of one call. -/
inductive Out : Type
  | value (r : Option Int)
  | table (rows : List (List (Char × Int) × Option Int))

/-- One call threading the process-wide `g_var_mapping`.  Each entry
point overwrites the whole 256-entry table before parsing
(`evaluate_boolean_expression` primes it with 1s, the two other entry
points `memcpy` a caller mapping over it), so the outgoing state is
exactly the table that was installed last. -/
def g_step (fuel : Nat) : Op → Mapping → Out × Mapping
  | .evalDefault s, _ =>
    (.value ((parse_expression true allOnes fuel s 0).map (fun r => r.1)), allOnes)
  | .evalWith s m, _ =>
    (.value ((parse_expression true m fuel s 0).map (fun r => r.1)), m)
  | .truthTable s, g =>
    (.table (generate_truth_table fuel s),
     if (total_rows (collect_vars s).length).toNat = 0 then g
     else row_mapping (collect_vars s) ((total_rows (collect_vars s).length).toNat - 1))

/-- Run a sequence of calls from an initial global table, returning the
final global table. -/
def g_run (fuel : Nat) (ops : List Op) (g : Mapping) : Mapping :=
  ops.foldl (fun g op => (g_step fuel op g).2) g

/-- C9: Evaluation is stateless between calls: the observable result of
any call depends only on that call's arguments, never on the global
table left behind by earlier parse/evaluate/truth-table calls — any two
histories (and any two initial tables) give the same result. -/
theorem claim_C9_stateless (fuel : Nat) (op : Op) (hist1 hist2 : List Op)
    (g1 g2 : Mapping) :
    (g_step fuel op (g_run fuel hist1 g1)).1 = (g_step fuel op (g_run fuel hist2 g2)).1 := by
  cases op <;> rfl

/-! ## Claims about error handling (C1, C2) -/

/-- C1: The claim says `parse("A $ B")` must fail with a `SyntaxError`.
The code does not: the unrecognized `'$'` is silently ignored (the
solver.c `parse_factor` even has a bare `(*s)++` for this case), the
parse succeeds with value 1 and no diagnostic is emitted, in both the
command-line and the CGI host.  This theorem records the actual
behavior at the claim's own example input. -/
theorem claim_C1_unrecognized_char_accepted :
    parse_expression true allOnes 32 "A $ B".data 0 = some (1, 2, false)
    ∧ Solver.evaluate_boolean_expression 32 "A $ B".data = some 1
    ∧ parse_expression false allOnes 32 "A $ B".data 0 = some (1, 2, false)
    ∧ Server.evaluate_boolean_expression 32 "A $ B".data = some 1 := by
  decide

/-- C2: The claim says `parse("(A · B")` (missing close paren) must fail
with a `SyntaxError`.  The code prints `"Error: Missing closing
parenthesis."` to stderr (the diagnostic flag below is `true`) but does
not fail: it still returns the evaluated value 1, in both hosts.  This
theorem records the actual behavior at the claim's own example input. -/
theorem claim_C2_missing_paren_returns_value :
    parse_expression true allOnes 32 "(A · B".data 0 = some (1, 6, true)
    ∧ Solver.evaluate_boolean_expression 32 "(A · B".data = some 1
    ∧ parse_expression false allOnes 32 "(A · B".data 0 = some (1, 6, true)
    ∧ Server.evaluate_boolean_expression 32 "(A · B".data = some 1 := by
  decide

/-! ## C4: default-true variable resolution -/

/-- C4: A variable letter not present in the assignment evaluates to the
default value true (1): truth-table row mappings keep 1 at every
alphabetic character outside the collected variable set, the default
table used when no assignment is supplied maps every index to 1, and
`evaluate_boolean_expression` is exactly evaluation under that all-true
table; in particular `evaluate_boolean_expression("A + B")` returns
true. -/
theorem claim_C4_default_true :
    (∀ s i c, isalphaC c = true → c ∉ collect_vars s →
      row_mapping (collect_vars s) i (charIdx c) = 1)
    ∧ (∀ k, allOnes k = 1)
    ∧ (∀ fuel s, Solver.evaluate_boolean_expression fuel s
        = Solver.evaluate_expr_with_mapping fuel s allOnes)
    ∧ Solver.evaluate_boolean_expression 32 "A + B".data = some 1 := by
  refine ⟨fun s i c hc hm => row_mapping_default s i c hc hm, fun k => rfl,
    fun fuel s => rfl, by decide⟩

/-- Witness for C4 at concrete inputs. -/
theorem claim_C4_default_true_witness :
    row_mapping (collect_vars "A".data) 0 (charIdx 'B') = 1 :=
  claim_C4_default_true.1 "A".data 0 'B' (by decide) (by decide)

/-! ## C5: operator precedence -/

/-- The assignment A=false, B=false, C=true named by the claim (all
other variables true). -/
def assignFFT : Mapping :=
  fun k => if k = charIdx 'A' ∨ k = charIdx 'B' then 0 else 1

/-- The assignment A=true, B=false, C=false (all other variables true). -/
def assignTFF : Mapping :=
  fun k => if k = charIdx 'B' ∨ k = charIdx 'C' then 0 else 1

/-- The UTF-8 bytes of `"A + B · C"` (the middle dot is the byte pair
`0xC2 0xB7`). -/
def bytesAplusBdotC : List Char := ['A', ' ', '+', ' ', 'B', ' ', '\xC2', '\xB7', ' ', 'C']

/-- The UTF-8 bytes of `"A + (B · C)"`. -/
def bytesAplusParenBdotC : List Char :=
  ['A', ' ', '+', ' ', '(', 'B', ' ', '\xC2', '\xB7', ' ', 'C', ')']

/-- The UTF-8 bytes of `"(A + B) · C"`. -/
def bytesParenAplusBdotC : List Char :=
  ['(', 'A', ' ', '+', ' ', 'B', ')', ' ', '\xC2', '\xB7', ' ', 'C']

/-- C5 counterexample: under A=false, B=false, C=true the claim says
`A + B · C` and `A + (B · C)` evaluate to true; in fact the compiled
program evaluates both to false (each reduces to `A OR B` because the
`'·'` comparison never succeeds, and already under the intended AND
reading 0 + 0·1 = 0), and `(A + B) · C` is false there as well, so
this assignment separates nothing. -/
theorem claim_C5_counterexample :
    assignFFT (charIdx 'A') = 0 ∧ assignFFT (charIdx 'B') = 0 ∧ assignFFT (charIdx 'C') = 1
    ∧ evaluate_expr_with_mappingB true 32 bytesAplusBdotC assignFFT = some 0
    ∧ evaluate_expr_with_mappingB true 32 bytesAplusParenBdotC assignFFT = some 0
    ∧ evaluate_expr_with_mappingB true 32 bytesParenAplusBdotC assignFFT = some 0 := by
  decide

set_option maxRecDepth 8192 in
/-- C5 (amended): in the compiled program the `'·'` comparison is
against the multi-character constant `0xC2B7`, which no promoted byte
can equal, so the AND branch is dead and `A + B · C`, `A + (B · C)`
and `(A + B) · C` all evaluate to `A OR B`: they agree under every
256-entry mapping (and all sufficient fuel), all give true with every
variable true, and no assignment separates the third from the first
two (at A=true, B=false, C=false all three give true). -/
theorem claim_C5_amended_precedence :
    (∀ c : Char, c.toNat < 256 → charPromote c ≠ midDotConstant)
    ∧ (∀ (m : Mapping) (fuel : Nat), 32 ≤ fuel →
      evaluate_expr_with_mappingB true fuel bytesAplusBdotC m
        = evaluate_expr_with_mappingB true fuel bytesAplusParenBdotC m)
    ∧ (∀ (m : Mapping) (fuel : Nat), 32 ≤ fuel →
      evaluate_expr_with_mappingB true fuel bytesAplusBdotC m
        = evaluate_expr_with_mappingB true fuel bytesParenAplusBdotC m)
    ∧ evaluate_boolean_expressionB true 32 bytesAplusBdotC = some 1
    ∧ evaluate_boolean_expressionB true 32 bytesAplusParenBdotC = some 1
    ∧ evaluate_boolean_expressionB true 32 bytesParenAplusBdotC = some 1
    ∧ evaluate_expr_with_mappingB true 32 bytesAplusBdotC assignTFF = some 1
    ∧ evaluate_expr_with_mappingB true 32 bytesParenAplusBdotC assignTFF = some 1 := by
  refine ⟨charPromote_ne_midDot, ?_, ?_, by decide, by decide, by decide, by decide, by decide⟩
  · intro m fuel hf
    obtain ⟨rA, hA⟩ : ∃ r, parse_expressionB true m 32 bytesAplusBdotC 0 = some r := ⟨_, rfl⟩
    obtain ⟨rB, hB⟩ : ∃ r, parse_expressionB true m 32 bytesAplusParenBdotC 0 = some r :=
      ⟨_, rfl⟩
    have he : evaluate_expr_with_mappingB true 32 bytesAplusBdotC m
        = evaluate_expr_with_mappingB true 32 bytesAplusParenBdotC m := rfl
    have h1 : evaluate_expr_with_mappingB true 32 bytesAplusBdotC m = some rA.1 := by
      show (parse_expressionB true m 32 bytesAplusBdotC 0).map (fun r => r.1) = _
      rw [hA]
      rfl
    have h2 : evaluate_expr_with_mappingB true 32 bytesAplusParenBdotC m = some rB.1 := by
      show (parse_expressionB true m 32 bytesAplusParenBdotC 0).map (fun r => r.1) = _
      rw [hB]
      rfl
    rw [h1, h2] at he
    have hv : rA.1 = rB.1 := Option.some.inj he
    show (parse_expressionB true m fuel bytesAplusBdotC 0).map (fun r => r.1)
        = (parse_expressionB true m fuel bytesAplusParenBdotC 0).map (fun r => r.1)
    rw [parse_expressionB_mono true m bytesAplusBdotC 0 32 fuel hf rA hA,
        parse_expressionB_mono true m bytesAplusParenBdotC 0 32 fuel hf rB hB]
    simp [hv]
  · intro m fuel hf
    obtain ⟨rA, hA⟩ : ∃ r, parse_expressionB true m 32 bytesAplusBdotC 0 = some r := ⟨_, rfl⟩
    obtain ⟨rC, hC⟩ : ∃ r, parse_expressionB true m 32 bytesParenAplusBdotC 0 = some r :=
      ⟨_, rfl⟩
    have he : evaluate_expr_with_mappingB true 32 bytesAplusBdotC m
        = evaluate_expr_with_mappingB true 32 bytesParenAplusBdotC m := rfl
    have h1 : evaluate_expr_with_mappingB true 32 bytesAplusBdotC m = some rA.1 := by
      show (parse_expressionB true m 32 bytesAplusBdotC 0).map (fun r => r.1) = _
      rw [hA]
      rfl
    have h2 : evaluate_expr_with_mappingB true 32 bytesParenAplusBdotC m = some rC.1 := by
      show (parse_expressionB true m 32 bytesParenAplusBdotC 0).map (fun r => r.1) = _
      rw [hC]
      rfl
    rw [h1, h2] at he
    have hv : rA.1 = rC.1 := Option.some.inj he
    show (parse_expressionB true m fuel bytesAplusBdotC 0).map (fun r => r.1)
        = (parse_expressionB true m fuel bytesParenAplusBdotC 0).map (fun r => r.1)
    rw [parse_expressionB_mono true m bytesAplusBdotC 0 32 fuel hf rA hA,
        parse_expressionB_mono true m bytesParenAplusBdotC 0 32 fuel hf rC hC]
    simp [hv]

/-- Witness for C5 (amended) at a concrete byte, mapping and fuel. -/
theorem claim_C5_amended_precedence_witness :
    charPromote '\xB7' ≠ midDotConstant
    ∧ evaluate_expr_with_mappingB true 32 bytesAplusBdotC assignFFT
        = evaluate_expr_with_mappingB true 32 bytesParenAplusBdotC assignFFT :=
  ⟨claim_C5_amended_precedence.1 '\xB7' (by decide),
   claim_C5_amended_precedence.2.2.1 assignFFT 32 (by decide)⟩

/-! ## C7: truth table with zero variables -/

/-- The UTF-8 bytes of `"1 · 0"`. -/
def oneDotZeroBytes : List Char := ['1', ' ', '\xC2', '\xB7', ' ', '0']

/-- C7: An expression containing no variables yields a truth table of
exactly one row, with an empty assignment and the expression's single
evaluated value — this part holds of the code.  But on the claim's own
example the compiled program's row result is true, not false: the
`'·'` comparison (a multi-character constant) never succeeds, so only
the leading `1` of `"1 · 0"` is parsed and the single row carries 1. -/
theorem claim_C7_zero_variables :
    (∀ (s : List Char) (fuel : Nat), (∀ c ∈ s, isalphaC c = false) →
      generate_truth_table fuel s = [([], evaluate_expr_with_mappingB true fuel s allOnes)])
    ∧ generate_truth_table 32 oneDotZeroBytes = [([], some 1)] := by
  refine ⟨?_, by decide⟩
  intro s fuel h
  have hv : collect_vars s = [] := collect_vars_no_alpha s h
  show (List.range (total_rows (collect_vars s).length).toNat).map
    (table_row fuel s (collect_vars s)) = _
  rw [hv]
  rfl

/-- Witness for C7 at a concrete constant-only expression. -/
theorem claim_C7_zero_variables_witness :
    generate_truth_table 32 "1".data
      = [([], evaluate_expr_with_mappingB true 32 "1".data allOnes)] :=
  claim_C7_zero_variables.1 "1".data 32 (by decide)

/-! ## C3: truth-table enumeration -/

/-- `(x >> k) & 1` is the `k`-th bit of `x`. -/
theorem shiftRight_and_one (x k : Nat) :
    (x >>> k) &&& 1 = (if x.testBit k then 1 else 0) := by
  rw [Nat.and_one_is_mod, Nat.shiftRight_eq_div_pow, Nat.testBit_to_div_mod]
  rcases Nat.mod_two_eq_zero_or_one (x / 2 ^ k) with h | h <;> simp [h]

theorem collectVarsAux_nodup (l : List Char) :
    ∀ acc, acc.Nodup → (collectVarsAux acc l).Nodup := by
  induction l with
  | nil => intro acc h; exact h
  | cons c t ih =>
    intro acc h
    unfold collectVarsAux
    by_cases hc : isalphaC c = true ∧ c ∉ acc ∧ acc.length < 100
    · rw [if_pos hc]
      exact ih (acc ++ [c]) (by
        rw [List.nodup_append]
        exact ⟨h, List.nodup_singleton c, by
          intro x hx hx2
          simp at hx2
          subst hx2
          exact hc.2.1 hx⟩)
    · rw [if_neg hc]
      exact ih acc h

/-- The collected variable list has no duplicates. -/
theorem collect_vars_nodup (s : List Char) : (collect_vars s).Nodup :=
  collectVarsAux_nodup s [] List.nodup_nil

/-- There are only 52 alphabetic ASCII characters, so a duplicate-free
list of them has at most 52 entries (and in particular the `vars[100]`
cap of `generate_truth_table` is never reached). -/
theorem alpha_nodup_length_le (l : List Char) (hn : l.Nodup)
    (ha : ∀ c ∈ l, isalphaC c = true) : l.length ≤ 52 := by
  have hinj : Function.Injective Char.toNat := fun a b h => char_toNat_inj a b h
  have hmn : (l.map Char.toNat).Nodup := hn.map hinj
  have hsub : (l.map Char.toNat).toFinset ⊆
      Finset.Icc 65 90 ∪ Finset.Icc 97 122 := by
    intro x hx
    rw [List.mem_toFinset, List.mem_map] at hx
    obtain ⟨c, hc, rfl⟩ := hx
    have := ha c hc
    simp [isalphaC] at this
    simp [Finset.mem_union, Finset.mem_Icc]
    omega
  have hcard := Finset.card_le_card hsub
  rw [List.toFinset_card_of_nodup hmn] at hcard
  have hfin : (Finset.Icc 65 90 ∪ Finset.Icc 97 122 : Finset Nat).card = 52 := by
    rw [Finset.card_union_of_disjoint (by
      rw [Finset.disjoint_left]
      intro a ha1 ha2
      simp [Finset.mem_Icc] at ha1 ha2
      omega)]
    simp [Nat.card_Icc]
  rw [hfin] at hcard
  simpa using hcard

theorem collectVarsAux_mem (l : List Char) :
    ∀ acc, acc.Nodup → (∀ c ∈ acc, isalphaC c = true) →
      ∀ x, x ∈ collectVarsAux acc l ↔ x ∈ acc ∨ (isalphaC x = true ∧ x ∈ l) := by
  induction l with
  | nil =>
    intro acc _ _ x
    simp [collectVarsAux]
  | cons c t ih =>
    intro acc hnd hal x
    unfold collectVarsAux
    by_cases hca : isalphaC c = true
    · by_cases hcm : c ∈ acc
      · rw [if_neg (by intro h; exact h.2.1 hcm)]
        rw [ih acc hnd hal x]
        constructor
        · rintro (h | h)
          · exact Or.inl h
          · exact Or.inr ⟨h.1, by simp [h.2]⟩
        · rintro (h | ⟨hx, hm⟩)
          · exact Or.inl h
          · simp at hm
            rcases hm with rfl | hm
            · exact Or.inl hcm
            · exact Or.inr ⟨hx, hm⟩
      · have hlen : acc.length < 100 := by
          have := alpha_nodup_length_le acc hnd hal
          omega
        rw [if_pos ⟨hca, hcm, hlen⟩]
        rw [ih (acc ++ [c]) (by
            rw [List.nodup_append]
            exact ⟨hnd, List.nodup_singleton c, by
              intro y hy hy2
              simp at hy2
              subst hy2
              exact hcm hy⟩)
          (by
            intro y hy
            rcases List.mem_append.1 hy with hy | hy
            · exact hal y hy
            · simp at hy; subst hy; exact hca) x]
        constructor
        · rintro (h | h)
          · rcases List.mem_append.1 h with h | h
            · exact Or.inl h
            · simp at h; subst h; exact Or.inr ⟨hca, by simp⟩
          · exact Or.inr ⟨h.1, by simp [h.2]⟩
        · rintro (h | ⟨hx, hm⟩)
          · exact Or.inl (List.mem_append.2 (Or.inl h))
          · simp at hm
            rcases hm with rfl | hm
            · exact Or.inl (List.mem_append.2 (Or.inr (by simp)))
            · exact Or.inr ⟨hx, hm⟩
    · rw [if_neg (by intro h; exact hca h.1)]
      rw [ih acc hnd hal x]
      constructor
      · rintro (h | h)
        · exact Or.inl h
        · exact Or.inr ⟨h.1, by simp [h.2]⟩
      · rintro (h | ⟨hx, hm⟩)
        · exact Or.inl h
        · simp at hm
          rcases hm with rfl | hm
          · exact absurd hx hca
          · exact Or.inr ⟨hx, hm⟩

/-- The collected variables are exactly the alphabetic characters of the
input, in first-occurrence order. -/
theorem collect_vars_mem (s : List Char) (x : Char) :
    x ∈ collect_vars s ↔ isalphaC x = true ∧ x ∈ s := by
  rw [collect_vars, collectVarsAux_mem s [] List.nodup_nil (by simp) x]
  simp

/-- Row access below the overflow bound: the `i`-th element of the
generated table is the row for combination `i`. -/
theorem generate_truth_table_getD (fuel : Nat) (s : List Char) (i : Nat)
    (hn : (collect_vars s).length ≤ 30) (h : i < 2 ^ (collect_vars s).length) :
    (generate_truth_table fuel s).getD i ([], none) = table_row fuel s (collect_vars s) i := by
  show ((List.range (total_rows (collect_vars s).length).toNat).map
    (table_row fuel s (collect_vars s))).getD i ([], none) = _
  have hlen : i < ((List.range (total_rows (collect_vars s).length).toNat).map
      (table_row fuel s (collect_vars s))).length := by
    rw [List.length_map, List.length_range, total_rows_small _ hn]
    exact h
  rw [List.getD_eq_getElem _ _ hlen, List.getElem_map, List.getElem_range]

/-- Two distinct combination numbers below `2 ^ n` produce different
per-variable assignment lists. -/
theorem row_assign_inj (s : List Char) (i j : Nat)
    (hi : i < 2 ^ (collect_vars s).length) (hj : j < 2 ^ (collect_vars s).length)
    (h : (collect_vars s).enum.map (fun p =>
          (p.2, (((i >>> ((collect_vars s).length - p.1 - 1)) &&& 1 : Nat) : Int)))
        = (collect_vars s).enum.map (fun p =>
          (p.2, (((j >>> ((collect_vars s).length - p.1 - 1)) &&& 1 : Nat) : Int)))) :
    i = j := by
  apply Nat.eq_of_testBit_eq
  intro k
  by_cases hk : k < (collect_vars s).length
  · have hpos : (collect_vars s).length - 1 - k < (collect_vars s).length := by omega
    have hc := congrArg (fun l => l.getD ((collect_vars s).length - 1 - k) ('A', 0)) h
    simp only at hc
    have hl1 : (collect_vars s).length - 1 - k
        < ((collect_vars s).enum.map (fun p =>
            (p.2, (((i >>> ((collect_vars s).length - p.1 - 1)) &&& 1 : Nat) : Int)))).length := by
      rw [List.length_map, List.enum_length]
      exact hpos
    have hl2 : (collect_vars s).length - 1 - k
        < ((collect_vars s).enum.map (fun p =>
            (p.2, (((j >>> ((collect_vars s).length - p.1 - 1)) &&& 1 : Nat) : Int)))).length := by
      rw [List.length_map, List.enum_length]
      exact hpos
    rw [List.getD_eq_getElem _ _ hl1, List.getD_eq_getElem _ _ hl2,
      List.getElem_map, List.getElem_map, List.getElem_enum] at hc
    dsimp only at hc
    rw [Prod.mk.injEq] at hc
    obtain ⟨-, hb⟩ := hc
    have hexp : (collect_vars s).length - ((collect_vars s).length - 1 - k) - 1 = k := by
      omega
    rw [hexp, shiftRight_and_one, shiftRight_and_one] at hb
    cases hti : i.testBit k <;> cases htj : j.testBit k <;>
      simp [hti, htj] at hb ⊢
  · have hik : i < 2 ^ k :=
      lt_of_lt_of_le hi (Nat.pow_le_pow_right (by norm_num) (by omega))
    have hjk : j < 2 ^ k :=
      lt_of_lt_of_le hj (Nat.pow_le_pow_right (by norm_num) (by omega))
    rw [Nat.testBit_lt_two_pow hik, Nat.testBit_lt_two_pow hjk]

/-- C3 (amended): for an expression with `n ≤ 30` distinct variables —
so that the 32-bit `int total_rows = 1 << var_count` does not overflow
— the enumerator produces exactly `2 ^ n` rows, the `i`-th row (in
increasing `i` order) assigning the `j`-th first-occurrence variable
bit `n - j - 1` of `i` and carrying the evaluation under that row's
mapping; hence row 0 is all-false, row `2 ^ n - 1` is all-true, rows
are pairwise distinct, and the first variable is the most significant
bit.  The variable list itself is duplicate-free and is exactly the
alphabetic characters of the input, unconditionally. -/
theorem claim_C3_truth_table_enumeration (s : List Char) (fuel : Nat) :
    (collect_vars s).Nodup
    ∧ (∀ x, x ∈ collect_vars s ↔ isalphaC x = true ∧ x ∈ s)
    ∧ ((collect_vars s).length ≤ 30 →
      (generate_truth_table fuel s).length = 2 ^ (collect_vars s).length
      ∧ (∀ i, i < 2 ^ (collect_vars s).length →
          (generate_truth_table fuel s).getD i ([], none)
            = ((collect_vars s).enum.map (fun p =>
                (p.2, (((i >>> ((collect_vars s).length - p.1 - 1)) &&& 1 : Nat) : Int))),
               evaluate_expr_with_mappingB true fuel s (row_mapping (collect_vars s) i)))
      ∧ (∀ p ∈ ((generate_truth_table fuel s).getD 0 ([], none)).1, p.2 = 0)
      ∧ (∀ p ∈ ((generate_truth_table fuel s).getD
          (2 ^ (collect_vars s).length - 1) ([], none)).1, p.2 = 1)
      ∧ (∀ i j, i < 2 ^ (collect_vars s).length → j < 2 ^ (collect_vars s).length → i ≠ j →
          ((generate_truth_table fuel s).getD i ([], none)).1
            ≠ ((generate_truth_table fuel s).getD j ([], none)).1)) := by
  refine ⟨collect_vars_nodup s, collect_vars_mem s, ?_⟩
  intro hn
  refine ⟨?_, ?_, ?_, ?_, ?_⟩
  · show ((List.range (total_rows (collect_vars s).length).toNat).map
      (table_row fuel s (collect_vars s))).length = _
    rw [List.length_map, List.length_range, total_rows_small _ hn]
  · intro i hi
    rw [generate_truth_table_getD fuel s i hn hi]
    rfl
  · intro p hp
    rw [generate_truth_table_getD fuel s 0 hn (Nat.pos_pow_of_pos _ (by norm_num))] at hp
    simp only [table_row] at hp
    rw [List.mem_iff_getElem] at hp
    obtain ⟨idx, hidx, hpe⟩ := hp
    rw [List.getElem_map, List.getElem_enum] at hpe
    rw [← hpe]
    simp [Nat.zero_shiftRight]
  · intro p hp
    rw [generate_truth_table_getD fuel s _ hn (by
      have : 0 < 2 ^ (collect_vars s).length := Nat.pos_pow_of_pos _ (by norm_num)
      omega)] at hp
    simp only [table_row] at hp
    rw [List.mem_iff_getElem] at hp
    obtain ⟨idx, hidx, hpe⟩ := hp
    have hidx2 : idx < (collect_vars s).length := by
      rw [List.length_map, List.enum_length] at hidx
      exact hidx
    rw [List.getElem_map, List.getElem_enum] at hpe
    rw [← hpe]
    have hk : (collect_vars s).length - idx - 1 < (collect_vars s).length := by omega
    simp only [shiftRight_and_one, Nat.testBit_two_pow_sub_one]
    simp [hk]
  · intro i j hi hj hne he
    rw [generate_truth_table_getD fuel s i hn hi,
      generate_truth_table_getD fuel s j hn hj] at he
    exact hne (row_assign_inj s i j hi hj he)

/-- A constant-free expression with 31 distinct variables. -/
def thirtyOneVars : List Char := "ABCDEFGHIJKLMNOPQRSTUVWXYZabcde".data

/-- C3 counterexample: with 31 distinct variables, `1 << var_count`
overflows 32-bit `int` (as compiled it yields `INT_MIN`), so the row
loop runs zero times and the table has 0 rows, not `2 ^ 31`. -/
theorem claim_C3_counterexample :
    (collect_vars thirtyOneVars).length = 31
    ∧ (generate_truth_table 32 thirtyOneVars).length = 0
    ∧ (generate_truth_table 32 thirtyOneVars).length
        ≠ 2 ^ (collect_vars thirtyOneVars).length := by
  decide

/-- The UTF-8 bytes of `"A · B"`. -/
def ADotBBytes : List Char := ['A', ' ', '\xC2', '\xB7', ' ', 'B']

/-- Witness for C3 at a concrete expression. -/
theorem claim_C3_truth_table_enumeration_witness :
    (generate_truth_table 32 ADotBBytes).length = 2 ^ (collect_vars ADotBBytes).length
    ∧ (generate_truth_table 32 ADotBBytes).getD 0 ([], none)
        = ((collect_vars ADotBBytes).enum.map (fun p =>
            (p.2, (((0 >>> ((collect_vars ADotBBytes).length - p.1 - 1)) &&& 1 : Nat) : Int))),
           evaluate_expr_with_mappingB true 32 ADotBBytes
             (row_mapping (collect_vars ADotBBytes) 0)) :=
  ⟨((claim_C3_truth_table_enumeration ADotBBytes 32).2.2 (by decide)).1,
   ((claim_C3_truth_table_enumeration ADotBBytes 32).2.2 (by decide)).2.1 0 (by decide)⟩

/-! ## Grammar conformance (§4.1) -/

/-- A run of whitespace characters. -/
def okWS (w : List Char) : Prop := ∀ c ∈ w, isspaceC c = true

/-- What may legally follow a term region: the `'·'` loop must stop
there and the preceding whitespace skip must already have stopped. -/
def termFollower (c : Char) : Prop := isspaceC c = false ∧ c ≠ '·'

/-- What may legally follow an expression region. -/
def exprFollower (c : Char) : Prop := isspaceC c = false ∧ c ≠ '·' ∧ c ≠ '+'

theorem digit_not_space (c : Char) (h : isdigitC c = true) : isspaceC c = false := by
  simp [isdigitC] at h
  simp [isspaceC]
  omega

theorem alpha_not_space (c : Char) (h : isalphaC c = true) : isspaceC c = false := by
  simp [isalphaC] at h
  simp [isspaceC]
  omega

theorem alpha_not_digit (c : Char) (h : isalphaC c = true) : isdigitC c = false := by
  simp [isalphaC] at h
  simp [isdigitC]
  omega

theorem digit_ne_bang (c : Char) (h : isdigitC c = true) : c ≠ '!' := by
  intro he
  subst he
  exact absurd h (by decide)

theorem digit_ne_lparen (c : Char) (h : isdigitC c = true) : c ≠ '(' := by
  intro he
  subst he
  exact absurd h (by decide)

theorem alpha_ne_bang (c : Char) (h : isalphaC c = true) : c ≠ '!' := by
  intro he
  subst he
  exact absurd h (by decide)

theorem alpha_ne_lparen (c : Char) (h : isalphaC c = true) : c ≠ '(' := by
  intro he
  subst he
  exact absurd h (by decide)

/-- The character at the start of the region following prefix `a` and
whitespace-free offset: reading at `a.length + w.length` in
`a ++ w ++ x :: rest` yields `x`. -/
theorem getC_at_region (a w : List Char) (x : Char) (rest : List Char) :
    getC (a ++ w ++ x :: rest) (a.length + w.length) = x := by
  have := getC_at_append (a ++ w) x rest
  simpa [List.append_assoc, List.length_append] using this

/-- Skipping from `a.length` over the whitespace run `w` stops exactly
at the non-whitespace character `x`. -/
theorem skip_at_region (a w : List Char) (x : Char) (rest : List Char)
    (hw : okWS w) (hx : isspaceC x = false) :
    skip_whitespace (a ++ w ++ x :: rest) a.length = a.length + w.length := by
  apply skip_whitespace_exact a w (x :: rest) hw
  rw [getC_at_region a w x rest, hx]

/-- `parse_factor` first skips whitespace, so it only depends on the
entry cursor through the skip result. -/
theorem parse_factor_skip_congr (adv : Bool) (m : Mapping) (fuel : Nat) (s : List Char)
    (p q : Nat) (h : skip_whitespace s p = skip_whitespace s q) :
    parse_factor adv m fuel s p = parse_factor adv m fuel s q := by
  cases fuel with
  | zero => rfl
  | succ f => rw [parse_factor_succ, parse_factor_succ, h]

/-- Same for `parse_term`, whose first action is `parse_factor`. -/
theorem parse_term_skip_congr (adv : Bool) (m : Mapping) (fuel : Nat) (s : List Char)
    (p q : Nat) (h : skip_whitespace s p = skip_whitespace s q) :
    parse_term adv m fuel s p = parse_term adv m fuel s q := by
  cases fuel with
  | zero => rfl
  | succ f => rw [parse_term_succ, parse_term_succ, parse_factor_skip_congr adv m f s p q h]

/-- Branch selection: literal digit. -/
theorem parse_factor_digit (adv : Bool) (m : Mapping) (fuel : Nat) (s : List Char) (i : Nat)
    (h : isdigitC (getC s (skip_whitespace s i)) = true) :
    parse_factor adv m (fuel + 1) s i =
      some (((getC s (skip_whitespace s i)).toNat : Int) - 48, skip_whitespace s i + 1, false) := by
  rw [parse_factor_succ]
  simp only [if_neg (digit_ne_bang _ h), if_neg (digit_ne_lparen _ h), if_pos h]

/-- Branch selection: variable. -/
theorem parse_factor_alpha (adv : Bool) (m : Mapping) (fuel : Nat) (s : List Char) (i : Nat)
    (h : isalphaC (getC s (skip_whitespace s i)) = true) :
    parse_factor adv m (fuel + 1) s i =
      some (m (charIdx (getC s (skip_whitespace s i))), skip_whitespace s i + 1, false) := by
  rw [parse_factor_succ]
  have hd : ¬ isdigitC (getC s (skip_whitespace s i)) = true := by
    rw [alpha_not_digit _ h]
    simp
  simp only [if_neg (alpha_ne_bang _ h), if_neg (alpha_ne_lparen _ h), if_neg hd, if_pos h]

/-- Branch selection: NOT. -/
theorem parse_factor_not (adv : Bool) (m : Mapping) (fuel : Nat) (s : List Char) (i : Nat)
    (h : getC s (skip_whitespace s i) = '!') :
    parse_factor adv m (fuel + 1) s i =
      (match parse_factor adv m fuel s (skip_whitespace s i + 1) with
       | none => none
       | some (fv, j, e) => some (if fv = 0 then 1 else 0, j, e)) := by
  rw [parse_factor_succ]
  simp only [if_pos h]

/-- Branch selection: parenthesized group. -/
theorem parse_factor_paren (adv : Bool) (m : Mapping) (fuel : Nat) (s : List Char) (i : Nat)
    (h : getC s (skip_whitespace s i) = '(') :
    parse_factor adv m (fuel + 1) s i =
      (match parse_expression adv m fuel s (skip_whitespace s i + 1) with
       | none => none
       | some (v, j, e) =>
         if getC s (skip_whitespace s j) = ')' then some (v, skip_whitespace s j + 1, e)
         else some (v, skip_whitespace s j, true)) := by
  rw [parse_factor_succ]
  have h1 : getC s (skip_whitespace s i) ≠ '!' := by
    rw [h]
    decide
  simp only [if_neg h1, if_pos h]

/-- Loop exit: a term loop stops on a non-`'·'` character. -/
theorem parse_term_loop_exit (adv : Bool) (m : Mapping) (fuel : Nat) (s : List Char)
    (i : Nat) (v : Int) (e : Bool) (h : getC s i ≠ '·') :
    parse_term_loop adv m (fuel + 1) s i v e = some (v, i, e) := by
  rw [parse_term_loop_succ]
  simp only [if_neg h]

/-- Loop exit: an expression loop stops on a non-`'+'` character. -/
theorem parse_expr_loop_exit (adv : Bool) (m : Mapping) (fuel : Nat) (s : List Char)
    (i : Nat) (v : Int) (e : Bool) (h : getC s i ≠ '+') :
    parse_expr_loop adv m (fuel + 1) s i v e = some (v, i, e) := by
  rw [parse_expr_loop_succ]
  simp only [if_neg h]

/-- Tags for the grammar productions of §4.1: factor, term, the rest of
a term (`{ '·' factor }`), expression, the rest of an expression
(`{ '+' term }`). -/
inductive GK : Type
  | fact
  | term
  | termRest
  | expr
  | exprRest

/-- Derivations of the §4.1 grammar over raw strings, with the
insignificant whitespace placed exactly where the parser consumes it:
a factor region carries its leading whitespace, a term region ends with
the whitespace that follows its last factor, and loop-rest regions
start at their operator character. -/
inductive Deriv : GK → List Char → Prop
  | fnot (w s : List Char) : okWS w → Deriv .fact s → Deriv .fact (w ++ '!' :: s)
  | fparen (w s : List Char) : okWS w → Deriv .expr s → Deriv .fact (w ++ '(' :: (s ++ [')']))
  | flit (w : List Char) (c : Char) : okWS w → (c = '0' ∨ c = '1') → Deriv .fact (w ++ [c])
  | fvar (w : List Char) (c : Char) : okWS w → isalphaC c = true → Deriv .fact (w ++ [c])
  | tmk (f w u : List Char) : Deriv .fact f → okWS w → Deriv .termRest u →
      Deriv .term (f ++ (w ++ u))
  | trNil : Deriv .termRest []
  | trCons (f w u : List Char) : Deriv .fact f → okWS w → Deriv .termRest u →
      Deriv .termRest ('·' :: (f ++ (w ++ u)))
  | emk (t u : List Char) : Deriv .term t → Deriv .exprRest u → Deriv .expr (t ++ u)
  | erNil : Deriv .exprRest []
  | erCons (t u : List Char) : Deriv .term t → Deriv .exprRest u →
      Deriv .exprRest ('+' :: (t ++ u))

/-- A term-rest region is empty or starts with `'·'`. -/
theorem termRest_shape (u : List Char) (h : Deriv .termRest u) :
    u = [] ∨ ∃ t, u = '·' :: t := by
  cases h with
  | trNil => exact Or.inl rfl
  | trCons f w u2 _ _ _ => exact Or.inr ⟨f ++ (w ++ u2), rfl⟩

/-- An expression-rest region is empty or starts with `'+'`. -/
theorem exprRest_shape (u : List Char) (h : Deriv .exprRest u) :
    u = [] ∨ ∃ t, u = '+' :: t := by
  cases h with
  | erNil => exact Or.inl rfl
  | erCons t u2 _ _ => exact Or.inr ⟨t ++ u2, rfl⟩

/-- Flexible-shape variant of `getC_at_append`. -/
theorem getC_eq_at (S a : List Char) (x : Char) (r : List Char) (hS : S = a ++ x :: r) :
    getC S a.length = x := by
  subst hS
  exact getC_at_append a x r

/-- Flexible-shape variant of `skip_whitespace_exact`. -/
theorem skip_to_ws_end (S a w r : List Char) (hS : S = a ++ w ++ r) (hw : okWS w)
    (hr : isspaceC (getC S (a.length + w.length)) = false) :
    skip_whitespace S a.length = a.length + w.length := by
  subst hS
  exact skip_whitespace_exact a w r hw hr

/-- The statement proved for each grammar production of §4.1: the
corresponding parser piece succeeds, consumes exactly the derived
region, stops at the region end, raises no diagnostic, and — under a
0/1-valued mapping — returns a 0/1 value; all of it uniformly in the
host flag `adv` and stable for every sufficient fuel. -/
def DMot : GK → List Char → Prop
  | .fact, d => ∀ (S : List Char) (i : Nat) (pre post : List Char) (m : Mapping),
      S = pre ++ d ++ post → i = pre.length →
      ∃ (v : Int) (f0 : Nat),
        ((∀ k, m k = 0 ∨ m k = 1) → v = 0 ∨ v = 1) ∧
        ∀ (adv : Bool) (fuel : Nat), f0 ≤ fuel →
          parse_factor adv m fuel S i = some (v, i + d.length, false)
  | .term, d => ∀ (S : List Char) (i : Nat) (pre post : List Char) (m : Mapping),
      S = pre ++ d ++ post → i = pre.length →
      termFollower (getC S (i + d.length)) →
      ∃ (v : Int) (f0 : Nat),
        ((∀ k, m k = 0 ∨ m k = 1) → v = 0 ∨ v = 1) ∧
        ∀ (adv : Bool) (fuel : Nat), f0 ≤ fuel →
          parse_term adv m fuel S i = some (v, i + d.length, false)
  | .termRest, d => ∀ (S : List Char) (i : Nat) (pre post : List Char) (m : Mapping) (v0 : Int),
      S = pre ++ d ++ post → i = pre.length →
      termFollower (getC S (i + d.length)) →
      ∃ (v : Int) (f0 : Nat),
        ((∀ k, m k = 0 ∨ m k = 1) → (v0 = 0 ∨ v0 = 1) → v = 0 ∨ v = 1) ∧
        ∀ (e0 : Bool) (adv : Bool) (fuel : Nat), f0 ≤ fuel →
          parse_term_loop adv m fuel S i v0 e0 = some (v, i + d.length, e0)
  | .expr, d => ∀ (S : List Char) (i : Nat) (pre post : List Char) (m : Mapping),
      S = pre ++ d ++ post → i = pre.length →
      exprFollower (getC S (i + d.length)) →
      ∃ (v : Int) (f0 : Nat),
        ((∀ k, m k = 0 ∨ m k = 1) → v = 0 ∨ v = 1) ∧
        ∀ (adv : Bool) (fuel : Nat), f0 ≤ fuel →
          parse_expression adv m fuel S i = some (v, i + d.length, false)
  | .exprRest, d => ∀ (S : List Char) (i : Nat) (pre post : List Char) (m : Mapping) (v0 : Int),
      S = pre ++ d ++ post → i = pre.length →
      exprFollower (getC S (i + d.length)) →
      ∃ (v : Int) (f0 : Nat),
        ((∀ k, m k = 0 ∨ m k = 1) → (v0 = 0 ∨ v0 = 1) → v = 0 ∨ v = 1) ∧
        ∀ (e0 : Bool) (adv : Bool) (fuel : Nat), f0 ≤ fuel →
          parse_expr_loop adv m fuel S i v0 e0 = some (v, i + d.length, e0)

/-- Position-flexible variant of `getC_at_append`. -/
theorem getC_eq_at2 (S a : List Char) (x : Char) (r : List Char) (p : Nat)
    (hS : S = a ++ x :: r) (hp : p = a.length) : getC S p = x := by
  subst hS hp
  exact getC_at_append a x r

/-- Position-flexible variant of `skip_whitespace_exact`. -/
theorem skip_to_ws_end2 (S a w r : List Char) (p q : Nat) (hS : S = a ++ w ++ r)
    (hp : p = a.length) (hq : q = a.length + w.length) (hw : okWS w)
    (hr : isspaceC (getC S q) = false) : skip_whitespace S p = q := by
  subst hS hp hq
  exact skip_whitespace_exact a w r hw hr

/-- Main parser/grammar correspondence: every §4.1 derivation is parsed
as stated by `DMot`: the parse succeeds with a 0/1 value (for a boolean
mapping), consumes exactly the derived region, and emits no diagnostic,
in both hosts and for every sufficient fuel. -/
theorem deriv_parse (gk : GK) (d : List Char) (hd : Deriv gk d) : DMot gk d := by
  induction hd with
  | fnot w s hw hs ih =>
    intro S i pre post m hS hi
    obtain ⟨fv, f1, hb1, hrun1⟩ := ih S (pre.length + w.length + 1) (pre ++ w ++ ['!']) post m
      (by rw [hS]; simp)
      (by simp only [List.length_append, List.length_cons, List.length_nil]; try omega)
    refine ⟨if fv = 0 then 1 else 0, f1 + 1, fun _ => ?_, ?_⟩
    · by_cases hz : fv = 0 <;> simp [hz]
    · intro adv fuel hfu
      obtain ⟨fl, rfl⟩ : ∃ fl, fuel = fl + 1 := ⟨fuel - 1, by omega⟩
      have hf1 : f1 ≤ fl := by omega
      have hg : getC S (pre.length + w.length) = '!' :=
        getC_eq_at2 S (pre ++ w) '!' (s ++ post) _ (by rw [hS]; simp) (by simp)
      have hsk : skip_whitespace S i = pre.length + w.length :=
        skip_to_ws_end2 S pre w ('!' :: (s ++ post)) i _ (by rw [hS]; simp) hi (by simp) hw
          (by rw [hg]; decide)
      rw [parse_factor_not adv m fl S i (by rw [hsk]; exact hg), hsk]
      simp only [hrun1 adv fl hf1]
      have hQ : pre.length + w.length + 1 + s.length = i + (w ++ '!' :: s).length := by
        simp only [List.length_append, List.length_cons, hi]
        omega
      rw [hQ]
  | fparen w s hw hs ih =>
    intro S i pre post m hS hi
    have hgr : getC S (pre.length + w.length + 1 + s.length) = ')' :=
      getC_eq_at2 S (pre ++ w ++ ['('] ++ s) ')' post _ (by rw [hS]; simp)
        (by simp only [List.length_append, List.length_cons, List.length_nil]; try omega)
    obtain ⟨ve, f1, hb1, hrun1⟩ := ih S (pre.length + w.length + 1) (pre ++ w ++ ['(']) (')' :: post) m
      (by rw [hS]; simp)
      (by simp only [List.length_append, List.length_cons, List.length_nil]; try omega)
      (by rw [hgr]; exact ⟨by decide, by decide, by decide⟩)
    refine ⟨ve, f1 + 1, fun hb => hb1 hb, ?_⟩
    intro adv fuel hfu
    obtain ⟨fl, rfl⟩ : ∃ fl, fuel = fl + 1 := ⟨fuel - 1, by omega⟩
    have hf1 : f1 ≤ fl := by omega
    have hg : getC S (pre.length + w.length) = '(' :=
      getC_eq_at2 S (pre ++ w) '(' (s ++ ')' :: post) _ (by rw [hS]; simp) (by simp)
    have hsk : skip_whitespace S i = pre.length + w.length :=
      skip_to_ws_end2 S pre w ('(' :: (s ++ ')' :: post)) i _ (by rw [hS]; simp) hi (by simp) hw
        (by rw [hg]; decide)
    rw [parse_factor_paren adv m fl S i (by rw [hsk]; exact hg), hsk]
    simp only [hrun1 adv fl hf1]
    have hsk2 : skip_whitespace S (pre.length + w.length + 1 + s.length)
        = pre.length + w.length + 1 + s.length :=
      skip_whitespace_of_not_space S _ (by rw [hgr]; decide)
    rw [hsk2, if_pos hgr]
    have hQ : pre.length + w.length + 1 + s.length + 1
        = i + (w ++ '(' :: (s ++ [')'])).length := by
      simp only [List.length_append, List.length_cons, List.length_nil, hi]
      omega
    rw [hQ]
  | flit w c hw hlit =>
    intro S i pre post m hS hi
    refine ⟨(c.toNat : Int) - 48, 1, fun _ => ?_, ?_⟩
    · rcases hlit with rfl | rfl
      · exact Or.inl (by decide)
      · exact Or.inr (by decide)
    · intro adv fuel hfu
      obtain ⟨fl, rfl⟩ : ∃ fl, fuel = fl + 1 := ⟨fuel - 1, by omega⟩
      have hdig : isdigitC c = true := by rcases hlit with rfl | rfl <;> decide
      have hg : getC S (pre.length + w.length) = c :=
        getC_eq_at2 S (pre ++ w) c post _ (by rw [hS]; simp) (by simp)
      have hsk : skip_whitespace S i = pre.length + w.length :=
        skip_to_ws_end2 S pre w (c :: post) i _ (by rw [hS]; simp) hi (by simp) hw
          (by rw [hg]; exact digit_not_space c hdig)
      rw [parse_factor_digit adv m fl S i (by rw [hsk, hg]; exact hdig), hsk, hg]
      have hQ : pre.length + w.length + 1 = i + (w ++ [c]).length := by
        simp only [List.length_append, List.length_cons, List.length_nil, hi]
        omega
      rw [hQ]
  | fvar w c hw hc =>
    intro S i pre post m hS hi
    refine ⟨m (charIdx c), 1, fun hb => hb _, ?_⟩
    intro adv fuel hfu
    obtain ⟨fl, rfl⟩ : ∃ fl, fuel = fl + 1 := ⟨fuel - 1, by omega⟩
    have hg : getC S (pre.length + w.length) = c :=
      getC_eq_at2 S (pre ++ w) c post _ (by rw [hS]; simp) (by simp)
    have hsk : skip_whitespace S i = pre.length + w.length :=
      skip_to_ws_end2 S pre w (c :: post) i _ (by rw [hS]; simp) hi (by simp) hw
        (by rw [hg]; exact alpha_not_space c hc)
    rw [parse_factor_alpha adv m fl S i (by rw [hsk, hg]; exact hc), hsk, hg]
    have hQ : pre.length + w.length + 1 = i + (w ++ [c]).length := by
      simp only [List.length_append, List.length_cons, List.length_nil, hi]
      omega
    rw [hQ]
  | tmk f w u hf hw hu ihf ihu =>
    intro S i pre post m hS hi hfol
    obtain ⟨vf, f1, hb1, hrun1⟩ := ihf S i pre (w ++ u ++ post) m (by rw [hS]; simp) hi
    have hfol2 : termFollower (getC S (i + f.length + w.length + u.length)) := by
      have hp : i + f.length + w.length + u.length = i + (f ++ (w ++ u)).length := by
        simp only [List.length_append]
        omega
      rw [hp]
      exact hfol
    obtain ⟨v, f2, hb2, hrun2⟩ := ihu S (i + f.length + w.length) (pre ++ f ++ w) post m vf
      (by rw [hS]; simp)
      (by subst hi; simp only [List.length_append])
      hfol2
    refine ⟨v, f1 + f2 + 1, fun hb => hb2 hb (hb1 hb), ?_⟩
    intro adv fuel hfu
    obtain ⟨fl, rfl⟩ : ∃ fl, fuel = fl + 1 := ⟨fuel - 1, by omega⟩
    have hf1 : f1 ≤ fl := by omega
    have hf2 : f2 ≤ fl := by omega
    rw [parse_term_succ]
    simp only [hrun1 adv fl hf1]
    have hsk : skip_whitespace S (i + f.length) = i + f.length + w.length := by
      rcases termRest_shape u hu with rfl | ⟨t, rfl⟩
      · exact skip_to_ws_end2 S (pre ++ f) w post _ _
          (by rw [hS]; simp)
          (by subst hi; simp only [List.length_append])
          (by subst hi; simp only [List.length_append])
          hw
          (by
            have hp : i + f.length + w.length
                = i + (f ++ (w ++ ([] : List Char))).length := by
              simp only [List.length_append, List.length_nil]
              omega
            rw [hp]
            exact hfol.1)
      · exact skip_to_ws_end2 S (pre ++ f) w ('·' :: (t ++ post)) _ _
          (by rw [hS]; simp)
          (by subst hi; simp only [List.length_append])
          (by subst hi; simp only [List.length_append])
          hw
          (by
            rw [getC_eq_at2 S (pre ++ f ++ w) '·' (t ++ post) _ (by rw [hS]; simp)
              (by subst hi; simp only [List.length_append])]
            decide)
    rw [hsk, hrun2 false adv fl hf2]
    have hQ : i + f.length + w.length + u.length = i + (f ++ (w ++ u)).length := by
      simp only [List.length_append]
      omega
    rw [hQ]
  | trNil =>
    intro S i pre post m v0 hS hi hfol
    refine ⟨v0, 1, fun _ h => h, ?_⟩
    intro e0 adv fuel hfu
    obtain ⟨fl, rfl⟩ : ∃ fl, fuel = fl + 1 := ⟨fuel - 1, by omega⟩
    have hg : getC S i ≠ '·' := by
      have hp : i + ([] : List Char).length = i := rfl
      rw [hp] at hfol
      exact hfol.2
    rw [parse_term_loop_exit adv m fl S i v0 e0 hg]
    rfl
  | trCons f w u hfd hw hu ihf ihu =>
    intro S i pre post m v0 hS hi hfol
    obtain ⟨vf, f1, hb1, hrun1⟩ := ihf S (i + 1) (pre ++ ['·']) (w ++ u ++ post) m
      (by rw [hS]; simp)
      (by subst hi; simp only [List.length_append, List.length_cons, List.length_nil]; try omega)
    have hfol2 : termFollower (getC S (i + 1 + f.length + w.length + u.length)) := by
      have hp : i + 1 + f.length + w.length + u.length
          = i + ('·' :: (f ++ (w ++ u))).length := by
        simp only [List.length_append, List.length_cons]
        omega
      rw [hp]
      exact hfol
    obtain ⟨v, f2, hb2, hrun2⟩ := ihu S (i + 1 + f.length + w.length) (pre ++ ['·'] ++ f ++ w)
      post m (if v0 ≠ 0 ∧ vf ≠ 0 then 1 else 0)
      (by rw [hS]; simp)
      (by subst hi; simp only [List.length_append, List.length_cons, List.length_nil]; try omega)
      hfol2
    refine ⟨v, f1 + f2 + 1,
      fun hb _ => hb2 hb (by by_cases hz : v0 ≠ 0 ∧ vf ≠ 0 <;> simp [hz]), ?_⟩
    intro e0 adv fuel hfu
    obtain ⟨fl, rfl⟩ : ∃ fl, fuel = fl + 1 := ⟨fuel - 1, by omega⟩
    have hf1 : f1 ≤ fl := by omega
    have hf2 : f2 ≤ fl := by omega
    have hg : getC S i = '·' :=
      getC_eq_at2 S pre '·' (f ++ (w ++ u) ++ post) i (by rw [hS]; simp) hi
    rw [parse_term_loop_succ, if_pos hg]
    rw [parse_factor_skip_congr adv m fl S (skip_whitespace S (i + 1)) (i + 1)
      (skip_whitespace_idem S (i + 1))]
    simp only [hrun1 adv fl hf1]
    have hsk : skip_whitespace S (i + 1 + f.length) = i + 1 + f.length + w.length := by
      rcases termRest_shape u hu with rfl | ⟨t, rfl⟩
      · exact skip_to_ws_end2 S (pre ++ ['·'] ++ f) w post _ _
          (by rw [hS]; simp)
          (by subst hi; simp only [List.length_append, List.length_cons, List.length_nil]; try omega)
          (by subst hi; simp only [List.length_append, List.length_cons, List.length_nil]; try omega)
          hw
          (by
            have hp : i + 1 + f.length + w.length
                = i + ('·' :: (f ++ (w ++ ([] : List Char)))).length := by
              simp only [List.length_append, List.length_cons, List.length_nil]
              omega
            rw [hp]
            exact hfol.1)
      · exact skip_to_ws_end2 S (pre ++ ['·'] ++ f) w ('·' :: (t ++ post)) _ _
          (by rw [hS]; simp)
          (by subst hi; simp only [List.length_append, List.length_cons, List.length_nil]; try omega)
          (by subst hi; simp only [List.length_append, List.length_cons, List.length_nil]; try omega)
          hw
          (by
            rw [getC_eq_at2 S (pre ++ ['·'] ++ f ++ w) '·' (t ++ post) _ (by rw [hS]; simp)
              (by subst hi; simp only [List.length_append, List.length_cons, List.length_nil]; try omega)]
            decide)
    rw [Bool.or_false, hsk, hrun2 e0 adv fl hf2]
    have hQ : i + 1 + f.length + w.length + u.length
        = i + ('·' :: (f ++ (w ++ u))).length := by
      simp only [List.length_append, List.length_cons]
      omega
    rw [hQ]
  | emk t u ht hu iht ihu =>
    intro S i pre post m hS hi hfol
    have hftm : termFollower (getC S (i + t.length)) := by
      rcases exprRest_shape u hu with rfl | ⟨r, rfl⟩
      · have hp : i + t.length = i + (t ++ ([] : List Char)).length := by simp
        rw [hp]
        exact ⟨hfol.1, hfol.2.1⟩
      · rw [getC_eq_at2 S (pre ++ t) '+' (r ++ post) _ (by rw [hS]; simp)
          (by subst hi; simp only [List.length_append])]
        exact ⟨by decide, by decide⟩
    obtain ⟨vt, f1, hb1, hrun1⟩ := iht S i pre (u ++ post) m (by rw [hS]; simp) hi hftm
    have hfol2 : exprFollower (getC S (i + t.length + u.length)) := by
      have hp : i + t.length + u.length = i + (t ++ u).length := by
        simp only [List.length_append]
        omega
      rw [hp]
      exact hfol
    obtain ⟨v, f2, hb2, hrun2⟩ := ihu S (i + t.length) (pre ++ t) post m vt
      (by rw [hS]; simp) (by subst hi; simp only [List.length_append]) hfol2
    refine ⟨v, f1 + f2 + 1, fun hb => hb2 hb (hb1 hb), ?_⟩
    intro adv fuel hfu
    obtain ⟨fl, rfl⟩ : ∃ fl, fuel = fl + 1 := ⟨fuel - 1, by omega⟩
    have hf1 : f1 ≤ fl := by omega
    have hf2 : f2 ≤ fl := by omega
    rw [parse_expression_succ]
    simp only [hrun1 adv fl hf1]
    have hsk : skip_whitespace S (i + t.length) = i + t.length :=
      skip_whitespace_of_not_space S _ hftm.1
    rw [hsk, hrun2 false adv fl hf2]
    have hQ : i + t.length + u.length = i + (t ++ u).length := by
      simp only [List.length_append]
      omega
    rw [hQ]
  | erNil =>
    intro S i pre post m v0 hS hi hfol
    refine ⟨v0, 1, fun _ h => h, ?_⟩
    intro e0 adv fuel hfu
    obtain ⟨fl, rfl⟩ : ∃ fl, fuel = fl + 1 := ⟨fuel - 1, by omega⟩
    have hg : getC S i ≠ '+' := by
      have hp : i + ([] : List Char).length = i := rfl
      rw [hp] at hfol
      exact hfol.2.2
    rw [parse_expr_loop_exit adv m fl S i v0 e0 hg]
    rfl
  | erCons t u ht hu iht ihu =>
    intro S i pre post m v0 hS hi hfol
    have hftm : termFollower (getC S (i + 1 + t.length)) := by
      rcases exprRest_shape u hu with rfl | ⟨r, rfl⟩
      · have hp : i + 1 + t.length = i + ('+' :: (t ++ ([] : List Char))).length := by
          simp only [List.length_append, List.length_cons, List.length_nil]
          omega
        rw [hp]
        exact ⟨hfol.1, hfol.2.1⟩
      · rw [getC_eq_at2 S (pre ++ ['+'] ++ t) '+' (r ++ post) _ (by rw [hS]; simp)
          (by subst hi; simp only [List.length_append, List.length_cons, List.length_nil]; try omega)]
        exact ⟨by decide, by decide⟩
    obtain ⟨vt, f1, hb1, hrun1⟩ := iht S (i + 1) (pre ++ ['+']) (u ++ post) m
      (by rw [hS]; simp)
      (by subst hi; simp only [List.length_append, List.length_cons, List.length_nil]; try omega)
      hftm
    have hfol2 : exprFollower (getC S (i + 1 + t.length + u.length)) := by
      have hp : i + 1 + t.length + u.length = i + ('+' :: (t ++ u)).length := by
        simp only [List.length_append, List.length_cons]
        omega
      rw [hp]
      exact hfol
    obtain ⟨v, f2, hb2, hrun2⟩ := ihu S (i + 1 + t.length) (pre ++ ['+'] ++ t) post m
      (if v0 ≠ 0 ∨ vt ≠ 0 then 1 else 0)
      (by rw [hS]; simp)
      (by subst hi; simp only [List.length_append, List.length_cons, List.length_nil]; try omega)
      hfol2
    refine ⟨v, f1 + f2 + 1,
      fun hb _ => hb2 hb (by by_cases hz : v0 ≠ 0 ∨ vt ≠ 0 <;> simp [hz]), ?_⟩
    intro e0 adv fuel hfu
    obtain ⟨fl, rfl⟩ : ∃ fl, fuel = fl + 1 := ⟨fuel - 1, by omega⟩
    have hf1 : f1 ≤ fl := by omega
    have hf2 : f2 ≤ fl := by omega
    have hg : getC S i = '+' :=
      getC_eq_at2 S pre '+' (t ++ u ++ post) i (by rw [hS]; simp) hi
    rw [parse_expr_loop_succ, if_pos hg]
    rw [parse_term_skip_congr adv m fl S (skip_whitespace S (i + 1)) (i + 1)
      (skip_whitespace_idem S (i + 1))]
    simp only [hrun1 adv fl hf1]
    have hsk : skip_whitespace S (i + 1 + t.length) = i + 1 + t.length :=
      skip_whitespace_of_not_space S _ hftm.1
    rw [Bool.or_false, hsk, hrun2 e0 adv fl hf2]
    have hQ : i + 1 + t.length + u.length = i + ('+' :: (t ++ u)).length := by
      simp only [List.length_append, List.length_cons]
      omega
    rw [hQ]

/-- C8: For every input string conforming to the §4.1 grammar and every
0/1-valued variable mapping, evaluation terminates (the parse succeeds
for all sufficient fuel), returns a boolean value (0 or 1), raises no
diagnostic, and the parser stops exactly at the end of the string — it
never reads past the NUL terminator (the final cursor is `s.length`);
this holds for both hosts (`adv` quantified). -/
theorem claim_C8_grammar_evaluation_safe (s : List Char) (m : Mapping)
    (hd : Deriv .expr s) (hm : ∀ k, m k = 0 ∨ m k = 1) :
    ∃ (v : Int) (f0 : Nat), (v = 0 ∨ v = 1) ∧
      ∀ (adv : Bool) (fuel : Nat), f0 ≤ fuel →
        parse_expression adv m fuel s 0 = some (v, s.length, false) := by
  have hg : exprFollower (getC s (0 + s.length)) := by
    rw [getC_past s (0 + s.length) (by omega)]
    exact ⟨by decide, by decide, by decide⟩
  obtain ⟨v, f0, hb, hrun⟩ := deriv_parse .expr s hd s 0 [] [] m (by simp) rfl hg
  refine ⟨v, f0, hb hm, ?_⟩
  intro adv fuel hf
  have h := hrun adv fuel hf
  rw [Nat.zero_add] at h
  exact h

/-- A concrete grammar derivation for the string `"A + 1"`. -/
theorem deriv_A_plus_1 : Deriv .expr ("A + 1".data) := by
  have hA : Deriv .fact (['A'] : List Char) :=
    Deriv.fvar [] 'A' (by intro c hc; simp at hc) (by decide)
  have h1 : Deriv .term (['A', ' '] : List Char) :=
    Deriv.tmk ['A'] [' '] [] hA (by intro c hc; simp at hc; subst hc; decide) Deriv.trNil
  have hlit : Deriv .fact ([' ', '1'] : List Char) :=
    Deriv.flit [' '] '1' (by intro c hc; simp at hc; subst hc; decide) (Or.inr rfl)
  have h2 : Deriv .term ([' ', '1'] : List Char) :=
    Deriv.tmk [' ', '1'] [] [] hlit (by intro c hc; simp at hc) Deriv.trNil
  have h3 : Deriv .exprRest (['+', ' ', '1'] : List Char) :=
    Deriv.erCons [' ', '1'] [] h2 Deriv.erNil
  exact Deriv.emk ['A', ' '] ['+', ' ', '1'] h1 h3

/-- Witness for C8 at the concrete conforming input `"A + 1"` with the
all-true mapping. -/
theorem claim_C8_grammar_evaluation_safe_witness :
    ∃ (v : Int) (f0 : Nat), (v = 0 ∨ v = 1) ∧
      ∀ (adv : Bool) (fuel : Nat), f0 ≤ fuel →
        parse_expression adv allOnes fuel ("A + 1".data) 0
          = some (v, ("A + 1".data).length, false) :=
  claim_C8_grammar_evaluation_safe ("A + 1".data) allOnes deriv_A_plus_1
    (fun _ => Or.inr rfl)

/-- C6 counterexample: the two front ends are not behaviorally
identical on every input string.  On `"$+1"` the solver.c parser
consumes the unrecognized `'$'` and then sees `+ 1`, returning 1, while
the server.c parser leaves the cursor on `'$'`, so its loops stop and it
returns 0 — with the same all-true mapping. -/
theorem claim_C6_counterexample_divergence :
    Solver.evaluate_expr_with_mapping 32 "$+1".data allOnes = some 1
    ∧ Server.evaluate_expr_with_mapping 32 "$+1".data allOnes = some 0
    ∧ Solver.evaluate_boolean_expression 32 "$+1".data = some 1
    ∧ Server.evaluate_boolean_expression 32 "$+1".data = some 0 := by
  decide

/-- C6 (amended): the parse-and-evaluate logic of the two front ends is
behaviorally identical on every input string that conforms to the §4.1
grammar, for every 256-entry variable mapping (and all sufficient
fuel). -/
theorem claim_C6_amended_equivalence_on_grammar (s : List Char) (hd : Deriv .expr s)
    (m : Mapping) :
    ∃ f0, ∀ fuel, f0 ≤ fuel →
      Solver.evaluate_expr_with_mapping fuel s m
        = Server.evaluate_expr_with_mapping fuel s m := by
  have hg : exprFollower (getC s (0 + s.length)) := by
    rw [getC_past s (0 + s.length) (by omega)]
    exact ⟨by decide, by decide, by decide⟩
  obtain ⟨v, f0, _, hrun⟩ := deriv_parse .expr s hd s 0 [] [] m (by simp) rfl hg
  refine ⟨f0, fun fuel hf => ?_⟩
  show (parse_expression true m fuel s 0).map (fun r => r.1)
      = (parse_expression false m fuel s 0).map (fun r => r.1)
  rw [hrun true fuel hf, hrun false fuel hf]

/-- Witness for C6 (amended) at the concrete conforming input
`"A + 1"`. -/
theorem claim_C6_amended_equivalence_on_grammar_witness :
    ∃ f0, ∀ fuel, f0 ≤ fuel →
      Solver.evaluate_expr_with_mapping fuel "A + 1".data allOnes
        = Server.evaluate_expr_with_mapping fuel "A + 1".data allOnes :=
  claim_C6_amended_equivalence_on_grammar "A + 1".data deriv_A_plus_1 allOnes

/-- C10 counterexample: the claim is not host-independent.  With the
empty string in a buffer whose residual bytes after the terminator are
`"+1"`, the command-line host (`solver.c`), whose unrecognized-character
branch advances `(*s)++` past the terminator, goes on to parse the
residual bytes and returns 1; the CGI host (`server.c`) stays at the
terminator and returns 0. -/
theorem claim_C10_counterexample :
    evaluate_boolean_expressionB true 32 ('\x00' :: "+1".data) = some 1
    ∧ evaluate_boolean_expressionB false 32 ('\x00' :: "+1".data) = some 0 := by
  decide

/-- C10 (amended): on an empty (or all-whitespace) string, where a
factor is expected but the input has ended, no error is reported and
the missing factor is given the value 0.  The CGI host
(`server.c`) returns 0 (false) whatever the residual memory beyond the
terminator holds, since it never advances past the terminator; the
command-line host (`solver.c`) advances one byte past the terminator
and returns 0 only when the byte there is itself NUL (clean residual
memory) — otherwise its result depends on indeterminate residual
bytes (see the counterexample). -/
theorem claim_C10_empty_input_false :
    (∀ (s tail : List Char), (∀ c ∈ s, isspaceC c = true) → ∀ (fuel : Nat), 4 ≤ fuel →
      evaluate_boolean_expressionB false fuel (s ++ '\x00' :: tail) = some 0)
    ∧ (∀ (s : List Char), (∀ c ∈ s, isspaceC c = true) → ∀ (fuel : Nat), 4 ≤ fuel →
      evaluate_boolean_expressionB true fuel (s ++ ['\x00']) = some 0)
    ∧ evaluate_boolean_expressionB false 8 ['\x00'] = some 0
    ∧ evaluate_boolean_expressionB true 8 ['\x00'] = some 0
    ∧ evaluate_boolean_expressionB false 8 ('\x00' :: "·A".data) = some 0 := by
  refine ⟨?_, ?_, by decide, by decide, by decide⟩
  · intro s tail hws fuel hfu
    obtain ⟨fl, rfl⟩ : ∃ fl, fuel = fl + 4 := ⟨fuel - 4, by omega⟩
    have hg : getC (s ++ '\x00' :: tail) s.length = '\x00' := getC_at_append s '\x00' tail
    have hsk0 : skip_whitespace (s ++ '\x00' :: tail) 0 = s.length :=
      skip_to_ws_end2 (s ++ '\x00' :: tail) [] s ('\x00' :: tail) 0 s.length (by simp) rfl
        (by simp) hws (by rw [hg]; decide)
    have hskL : skip_whitespace (s ++ '\x00' :: tail) s.length = s.length :=
      skip_whitespace_of_not_space _ _ (by rw [hg]; decide)
    have hfact : parse_factorB false allOnes (fl + 2) (s ++ '\x00' :: tail) 0
        = some (0, s.length, false) := by
      show parse_factorB false allOnes ((fl + 1) + 1) _ 0 = _
      rw [parse_factorB_succ]
      simp only [hsk0, hg]
      rw [if_neg (show ¬('\x00' : Char) = '!' by decide),
        if_neg (show ¬('\x00' : Char) = '(' by decide),
        if_neg (show ¬isdigitC '\x00' = true by decide),
        if_neg (show ¬isalphaC '\x00' = true by decide)]
      rfl
    have hterm : parse_termB false allOnes (fl + 3) (s ++ '\x00' :: tail) 0
        = some (0, s.length, false) := by
      show parse_termB false allOnes ((fl + 2) + 1) _ 0 = _
      rw [parse_termB_succ]
      simp only [hfact, hskL]
      exact parse_term_loopB_exit false allOnes (fl + 1) _ s.length 0 false
        (by rw [hg]; decide)
    have hexpr : parse_expressionB false allOnes (fl + 4) (s ++ '\x00' :: tail) 0
        = some (0, s.length, false) := by
      show parse_expressionB false allOnes ((fl + 3) + 1) _ 0 = _
      rw [parse_expressionB_succ]
      simp only [hterm, hskL]
      exact parse_expr_loopB_exit false allOnes (fl + 2) _ s.length 0 false
        (by rw [hg]; decide)
    show (parse_expressionB false allOnes (fl + 4) (s ++ '\x00' :: tail) 0).map
      (fun r => r.1) = some 0
    rw [hexpr]
    rfl
  · intro s hws fuel hfu
    obtain ⟨fl, rfl⟩ : ∃ fl, fuel = fl + 4 := ⟨fuel - 4, by omega⟩
    have hg : getC (s ++ ['\x00']) s.length = '\x00' := getC_at_append s '\x00' []
    have hg2 : getC (s ++ ['\x00']) (s.length + 1) = '\x00' :=
      getC_past _ _ (by simp)
    have hsk0 : skip_whitespace (s ++ ['\x00']) 0 = s.length :=
      skip_to_ws_end2 (s ++ ['\x00']) [] s ['\x00'] 0 s.length (by simp) rfl
        (by simp) hws (by rw [hg]; decide)
    have hskL : skip_whitespace (s ++ ['\x00']) (s.length + 1) = s.length + 1 :=
      skip_whitespace_of_not_space _ _ (by rw [hg2]; decide)
    have hfact : parse_factorB true allOnes (fl + 2) (s ++ ['\x00']) 0
        = some (0, s.length + 1, false) := by
      show parse_factorB true allOnes ((fl + 1) + 1) _ 0 = _
      rw [parse_factorB_succ]
      simp only [hsk0, hg]
      rw [if_neg (show ¬('\x00' : Char) = '!' by decide),
        if_neg (show ¬('\x00' : Char) = '(' by decide),
        if_neg (show ¬isdigitC '\x00' = true by decide),
        if_neg (show ¬isalphaC '\x00' = true by decide)]
      simp
    have hterm : parse_termB true allOnes (fl + 3) (s ++ ['\x00']) 0
        = some (0, s.length + 1, false) := by
      show parse_termB true allOnes ((fl + 2) + 1) _ 0 = _
      rw [parse_termB_succ]
      simp only [hfact, hskL]
      exact parse_term_loopB_exit true allOnes (fl + 1) _ (s.length + 1) 0 false
        (by rw [hg2]; decide)
    have hexpr : parse_expressionB true allOnes (fl + 4) (s ++ ['\x00']) 0
        = some (0, s.length + 1, false) := by
      show parse_expressionB true allOnes ((fl + 3) + 1) _ 0 = _
      rw [parse_expressionB_succ]
      simp only [hterm, hskL]
      exact parse_expr_loopB_exit true allOnes (fl + 2) _ (s.length + 1) 0 false
        (by rw [hg2]; decide)
    show (parse_expressionB true allOnes (fl + 4) (s ++ ['\x00']) 0).map
      (fun r => r.1) = some 0
    rw [hexpr]
    rfl

/-- Witness for C10 (amended) at a concrete all-whitespace string with
concrete residual bytes. -/
theorem claim_C10_empty_input_false_witness :
    evaluate_boolean_expressionB false 4 (" ".data ++ '\x00' :: "+1".data) = some 0
    ∧ evaluate_boolean_expressionB true 4 (" ".data ++ ['\x00']) = some 0 :=
  ⟨claim_C10_empty_input_false.1 " ".data "+1".data (by decide) 4 (by decide),
   claim_C10_empty_input_false.2.1 " ".data (by decide) 4 (by decide)⟩
